import Mathlib

/-!
Verification of the commit-diff-reviewer core (unified-diff parser and
review-session manager) against its natural-language specification.

The embedding follows `src/services/diffParser.ts` (which contains the diff
parser and the `SessionManager` class) and `src/utils/helpers.ts` /
`src/models/types.ts`.  JavaScript numbers holding line positions and cursor
indices are modelled as `Int` (they may go negative under drift remapping or
navigation); lengths and counts are `Nat`.  `crypto.randomBytes`-based id
generation is modelled by an explicit id supply `gen : Nat → String` together
with a draw counter, threaded through the parser exactly where the source
calls `generateChangeId()`.
-/

namespace CDR

/-- Status of a diff change (`ChangeStatus` in `models/types.ts`). -/
inductive ChangeStatus where
  | pending
  | accepted
  | rejected
deriving DecidableEq, Repr

/-- Type of a change (`ChangeType` in `models/types.ts`). -/
inductive ChangeType where
  | add
  | delete
  | modify
deriving DecidableEq, Repr

/-- One atomic change record (`DiffChange` in `models/types.ts`). -/
structure DiffChange where
  id : String
  type : ChangeType
  filePath : String
  oldLineStart : Int
  oldLineCount : Nat
  newLineStart : Int
  newLineCount : Nat
  oldContent : List String
  newContent : List String
  status : ChangeStatus
deriving DecidableEq, Repr

/-- A parsed per-file hunk (`DiffHunk` in `models/types.ts`). -/
structure DiffHunk where
  filePath : String
  isNew : Bool
  isDeleted : Bool
  isRenamed : Bool
  oldFilePath : Option String
  changes : List DiffChange
deriving DecidableEq, Repr

/-- Status of a review note. -/
inductive NoteStatus where
  | active
  | resolved
deriving DecidableEq, Repr

/-- A user note (`ReviewNote` in `models/types.ts`).  `Date` values are
modelled as milliseconds since the epoch. -/
structure ReviewNote where
  id : String
  filePath : String
  line : Int
  content : String
  status : NoteStatus
  createdAt : Nat
  updatedAt : Nat
deriving DecidableEq, Repr

/-- The live review session (`ReviewSession` in `models/types.ts`). -/
structure ReviewSession where
  commitHash : String
  shortHash : String
  commitMessage : String
  baseCommitHash : String
  changes : List DiffChange
  notes : List ReviewNote
  currentIndex : Int
  startedAt : Nat
deriving DecidableEq, Repr

/-- The persisted form (`SerializedSession` in `models/types.ts`).  The
`notes` field is optional to model serialized sessions written before notes
existed (the restore path reads `serialized.notes || []`).  `startedAt` is
the string produced by `Date.prototype.toISOString`. -/
structure SerializedSession where
  commitHash : String
  shortHash : String
  commitMessage : String
  baseCommitHash : String
  changes : List DiffChange
  notes : Option (List ReviewNote)
  currentIndex : Int
  startedAt : String
deriving DecidableEq, Repr

/-! ### Instant serialization

`persistSession` stores `startedAt.toISOString()` and `restoreSession` runs
`new Date(serialized.startedAt)`, recovering the same instant at millisecond
precision.  The embedding keeps the instant as milliseconds since the epoch
and models the ISO rendering as an injective decimal rendering of that
number; the calendar layout of the string is outside the embedding, only the
fact that the encoding is lossless at millisecond precision is used. -/

/-- Millisecond instant rendered as a decimal digit string (most significant
digit first), modelling the injective instant encoding of `toISOString`. -/
def isoOfInstant (t : Nat) : String :=
  String.mk (((Nat.digits 10 t).reverse).map (fun d => Char.ofNat (48 + d)))

/-- Recover the instant from its rendering, modelling `new Date(string)`. -/
def instantOfISO (s : String) : Nat :=
  Nat.ofDigits 10 ((s.toList.map (fun c => c.toNat - 48)).reverse)

theorem instantOfISO_isoOfInstant (t : Nat) : instantOfISO (isoOfInstant t) = t := by
  show Nat.ofDigits 10 (((String.mk (((Nat.digits 10 t).reverse).map
      (fun d => Char.ofNat (48 + d)))).toList.map (fun c => c.toNat - 48)).reverse) = t
  have htl : (String.mk (((Nat.digits 10 t).reverse).map
      (fun d => Char.ofNat (48 + d)))).toList
      = ((Nat.digits 10 t).reverse).map (fun d => Char.ofNat (48 + d)) := rfl
  rw [htl, List.map_map]
  have h : ((Nat.digits 10 t).reverse).map
        ((fun c => Char.toNat c - 48) ∘ (fun d => Char.ofNat (48 + d)))
      = ((Nat.digits 10 t).reverse).map id := by
    apply List.map_congr_left
    intro d hd
    have hlt : d < 10 := Nat.digits_lt_base (by norm_num) (List.mem_reverse.mp hd)
    simp only [Function.comp_apply, id]
    interval_cases d <;> decide
  rw [h, List.map_id, List.reverse_reverse, Nat.ofDigits_digits]

/-! ### Helpers (`src/utils/helpers.ts`) -/

/-- Binary extension list from `isTextFile`. -/
def binaryExtensions : List String :=
  [".png", ".jpg", ".jpeg", ".gif", ".bmp", ".ico", ".webp",
   ".pdf", ".doc", ".docx", ".xls", ".xlsx", ".ppt", ".pptx",
   ".zip", ".rar", ".7z", ".tar", ".gz",
   ".exe", ".dll", ".so", ".dylib",
   ".mp3", ".mp4", ".avi", ".mov", ".wav",
   ".ttf", ".otf", ".woff", ".woff2",
   ".bin", ".dat", ".db", ".sqlite"]

/-- JS `String.prototype.lastIndexOf` for a single character: the last index
at which `c` occurs, or `-1`. -/
def lastIndexOfChar (c : Char) (s : String) : Int :=
  match (s.toList.reverse).findIdx? (fun x => x = c) with
  | none => -1
  | some i => ((s.toList.length - 1 - i : Nat) : Int)

/-- Character-wise lower-casing, modelling `String.prototype.toLowerCase`. -/
def jsToLower (s : String) : String :=
  String.mk (s.toList.map Char.toLower)

/-- `isTextFile` from `src/utils/helpers.ts`: take the extension as
`filePath.toLowerCase().substring(filePath.lastIndexOf('.'))` (JS
`substring` clamps a negative start to `0`, so a dot-free path compares its
whole lower-cased self against the list) and reject known binary
extensions. -/
def isTextFile (filePath : String) : Bool :=
  let idx := lastIndexOfChar '.' filePath
  let start : Nat := if idx < 0 then 0 else idx.toNat
  let ext := String.mk ((jsToLower filePath).toList.drop start)
  !(binaryExtensions.contains ext)

/-! ### JS string primitives

The handful of JS string operations the source uses are modelled on the
character list of the string, so that they are kernel-reducible and easy to
reason about. -/

/-- JS `String.prototype.startsWith`. -/
def jsStartsWith (s p : String) : Bool :=
  p.toList.isPrefixOf s.toList

/-- Split a character list at every occurrence of a separator character. -/
def splitCharList (sep : Char) : List Char → List (List Char)
  | [] => [[]]
  | c :: cs =>
      let r := splitCharList sep cs
      if c = sep then [] :: r
      else
        match r with
        | h :: t => (c :: h) :: t
        | [] => [[c]]

/-- JS `String.prototype.split('\n')`. -/
def jsSplitLines (s : String) : List String :=
  (splitCharList '\n' s.toList).map String.mk

/-- JS `String.prototype.replace(/\\/g, '/')`: forward-slash every
backslash. -/
def jsSlashes (s : String) : String :=
  String.mk (s.toList.map (fun c => if c = '\\' then '/' else c))

/-! ### Diff parser (`src/services/diffParser.ts`) -/

/-- Search for the earliest split of the tail of a file header line (after
the leading `a/`) as `oldPath ++ " b/" ++ newPath` with both paths nonempty.
This mirrors the lazy groups of the regex `^a\/(.+?) b\/(.+?)$`: group 1 is
as short as possible subject to being nonempty and leaving a nonempty
group 2, and group 2 then extends to the end of the line. -/
def splitAtFirstBSep : List Char → List Char → Option (List Char × List Char)
  | pre, ' ' :: 'b' :: '/' :: c :: tail =>
      if pre.isEmpty then splitAtFirstBSep (pre ++ [' ']) ('b' :: '/' :: c :: tail)
      else some (pre, c :: tail)
  | pre, c :: rest => splitAtFirstBSep (pre ++ [c]) rest
  | _, [] => none
termination_by _ rest => rest.length

/-- Match of `lines[0]` against `^a\/(.+?) b\/(.+?)$` in `parseFileDiff`,
yielding `(oldPath, newPath)`. -/
def matchFileHeader (line : String) : Option (String × String) :=
  match line.toList with
  | 'a' :: '/' :: rest =>
      match splitAtFirstBSep [] rest with
      | some (pre, tail) => some (String.mk pre, String.mk tail)
      | none => none
  | _ => none

/-- Numeric value of a (nonempty) digit run, as `parseInt` computes it. -/
def digitsToNat (l : List Char) : Nat :=
  l.foldl (fun a c => a * 10 + (c.toNat - 48)) 0

/-- Parse the optional `,count` group of a hunk header; an omitted (or
unmatchable) group defaults to `1` via `parseInt(hunkMatch[i] || '1', 10)`. -/
def parseOptCount : List Char → Nat × List Char
  | ',' :: rest =>
      let ds := rest.takeWhile Char.isDigit
      if ds.isEmpty then (1, ',' :: rest) else (digitsToNat ds, rest.dropWhile Char.isDigit)
  | rest => (1, rest)

/-- Match a line against the hunk-header regex
`^@@ -(\d+)(?:,(\d+))? \+(\d+)(?:,(\d+))? @@`, yielding
`(oldStart, oldCount, newStart, newCount)` with counts defaulted to 1.
The regex is unanchored on the right, so arbitrary text may follow the
closing `@@`. -/
def parseHunkHeader (line : String) : Option (Nat × Nat × Nat × Nat) :=
  match line.toList with
  | '@' :: '@' :: ' ' :: '-' :: rest =>
    let ds1 := rest.takeWhile Char.isDigit
    if ds1.isEmpty then none else
    let r1 := rest.dropWhile Char.isDigit
    let p1 := parseOptCount r1
    match p1.2 with
    | ' ' :: '+' :: r3 =>
      let ds2 := r3.takeWhile Char.isDigit
      if ds2.isEmpty then none else
      let r4 := r3.dropWhile Char.isDigit
      let p2 := parseOptCount r4
      match p2.2 with
      | ' ' :: '@' :: '@' :: _ => some (digitsToNat ds1, p1.1, digitsToNat ds2, p2.1)
      | _ => none
    | _ => none
  | _ => none

/-- `parseHunkContent`: walk the collected hunk body lines with the two
running 1-indexed cursors, grouping runs of `-`/`+` lines into single
Delete/Modify/Add records.  `gen`/`k` model the `generateChangeId()` draws:
the `k`-th draw yields `gen k`. -/
def parseHunkContent (gen : Nat → String) (k : Nat) (lines : List String)
    (oldLineNum newLineNum : Int) (absolutePath : String) : List DiffChange × Nat :=
  match lines with
  | [] => ([], k)
  | line :: rest =>
    if jsStartsWith line " " then
      -- context line: advance both cursors
      parseHunkContent gen k rest (oldLineNum + 1) (newLineNum + 1) absolutePath
    else if h2 : jsStartsWith line "-" then
      -- deletion run, then an optional addition run (modification)
      let ds := (line :: rest).takeWhile (fun l => jsStartsWith l "-")
      let r1 := (line :: rest).dropWhile (fun l => jsStartsWith l "-")
      let as := r1.takeWhile (fun l => jsStartsWith l "+")
      let r2 := r1.dropWhile (fun l => jsStartsWith l "+")
      let deletedLines := ds.map (fun l => l.drop 1)
      let addedLines := as.map (fun l => l.drop 1)
      let change : DiffChange :=
        if as.length > 0 then
          { id := gen k, type := .modify, filePath := absolutePath,
            oldLineStart := oldLineNum, oldLineCount := deletedLines.length,
            newLineStart := newLineNum, newLineCount := addedLines.length,
            oldContent := deletedLines, newContent := addedLines, status := .pending }
        else
          { id := gen k, type := .delete, filePath := absolutePath,
            oldLineStart := oldLineNum, oldLineCount := deletedLines.length,
            newLineStart := newLineNum, newLineCount := 0,
            oldContent := deletedLines, newContent := [], status := .pending }
      let res := parseHunkContent gen (k + 1) r2 (oldLineNum + ds.length)
        (newLineNum + as.length) absolutePath
      (change :: res.1, res.2)
    else if h3 : jsStartsWith line "+" then
      -- pure addition run
      let as := (line :: rest).takeWhile (fun l => jsStartsWith l "+")
      let r1 := (line :: rest).dropWhile (fun l => jsStartsWith l "+")
      let addedLines := as.map (fun l => l.drop 1)
      let change : DiffChange :=
        { id := gen k, type := .add, filePath := absolutePath,
          oldLineStart := oldLineNum, oldLineCount := 0,
          newLineStart := newLineNum, newLineCount := addedLines.length,
          oldContent := [], newContent := addedLines, status := .pending }
      let res := parseHunkContent gen (k + 1) r1 oldLineNum
        (newLineNum + as.length) absolutePath
      (change :: res.1, res.2)
    else
      parseHunkContent gen k rest oldLineNum newLineNum absolutePath
termination_by lines.length
decreasing_by
  · simp
  · simp only [List.dropWhile_cons, h2, if_pos]
    have hle1 : (rest.dropWhile (fun l => jsStartsWith l "-")).length ≤ rest.length :=
      (List.dropWhile_sublist _).length_le
    have hle2 : ((rest.dropWhile (fun l => jsStartsWith l "-")).dropWhile
        (fun l => jsStartsWith l "+")).length
        ≤ (rest.dropWhile (fun l => jsStartsWith l "-")).length :=
      (List.dropWhile_sublist _).length_le
    simp only [List.length_cons]
    omega
  · simp only [List.dropWhile_cons, h3, if_pos]
    have hle1 : (rest.dropWhile (fun l => jsStartsWith l "+")).length ≤ rest.length :=
      (List.dropWhile_sublist _).length_le
    simp only [List.length_cons]
    omega
  · simp

/-- The hunk-scanning loop of `parseFileDiff`: walk the section's lines,
starting a new hunk at each header line (finalizing the previous in-progress
body, if nonempty, through `parseHunkContent`) and collecting `+`/`-`/space
lines while inside a hunk.  The source also stores each header's
`hunkOldCount`/`hunkNewCount` into loop variables that are never read
afterwards; they are bound and discarded here. -/
def fileDiffLoop (gen : Nat → String) (absolutePath : String) :
    List String → List DiffChange → Nat → List String → Nat → Nat → Bool →
    List DiffChange × Nat
  | [], changes, k, cur, oldStart, newStart, inHunk =>
      if inHunk && !cur.isEmpty then
        let res := parseHunkContent gen k cur (oldStart : Int) (newStart : Int) absolutePath
        (changes ++ res.1, res.2)
      else (changes, k)
  | line :: rest, changes, k, cur, oldStart, newStart, inHunk =>
      match parseHunkHeader line with
      | some (os, _oldCount, ns, _newCount) =>
          if inHunk && !cur.isEmpty then
            let res := parseHunkContent gen k cur (oldStart : Int) (newStart : Int) absolutePath
            fileDiffLoop gen absolutePath rest (changes ++ res.1) res.2 [] os ns true
          else
            fileDiffLoop gen absolutePath rest changes k [] os ns true
      | none =>
          if inHunk && (jsStartsWith line "+" || jsStartsWith line "-" || jsStartsWith line " ") then
            fileDiffLoop gen absolutePath rest changes k (cur ++ [line]) oldStart newStart inHunk
          else
            fileDiffLoop gen absolutePath rest changes k cur oldStart newStart inHunk

/-- `parseFileDiff` on a section already split into lines (the source's
first statement is `fileDiff.split('\n')`): match the `a/<old> b/<new>`
header, drop binary files, classify the section by scanning lines 1–9, and
run the hunk loop.  The returned hunk may have an empty change list; the
caller filters those out. -/
def parseFileDiffLines (gen : Nat → String) (k : Nat) :
    List String → String → Option DiffHunk × Nat
  | [], _ => (none, k)
  | line0 :: rest1, workspaceRoot =>
    match matchFileHeader line0 with
    | none => (none, k)
    | some (oldPath, newPath) =>
      if !isTextFile newPath then (none, k)
      else
        let lines := line0 :: rest1
        let slice := (lines.drop 1).take 9
        let isNew := slice.any (fun l => jsStartsWith l "new file mode")
        let isDeleted := slice.any (fun l => jsStartsWith l "deleted file mode")
        let isRenamed := slice.any
          (fun l => jsStartsWith l "rename from" || jsStartsWith l "similarity index")
        let absolutePath := jsSlashes workspaceRoot ++ "/" ++ newPath
        let res := fileDiffLoop gen absolutePath lines [] k [] 0 0 false
        (some { filePath := newPath, isNew := isNew, isDeleted := isDeleted,
                isRenamed := isRenamed,
                oldFilePath := if isRenamed then some oldPath else none,
                changes := res.1 }, res.2)

/-- The split `diffOutput.split(/^diff --git /m)` modelled at line
granularity: a line carrying the `diff --git ` marker starts a new section
whose first line is the remainder of that line; the newline preceding the
marker belongs to the previous section, which therefore gains a trailing
empty line (exactly what re-splitting the corresponding substring on `'\n'`
yields). -/
def splitDiffSections : List String → List String → List (List String)
  | cur, [] => [cur]
  | cur, l :: r =>
      if jsStartsWith l "diff --git " then
        (cur ++ [""]) :: splitDiffSections [l.drop 11] r
      else splitDiffSections (cur ++ [l]) r

/-- Whether a section is dropped by `.filter(s => s.trim())`: true when every
character (the `'\n'` separators being whitespace anyway) is whitespace. -/
def sectionIsBlank (sec : List String) : Bool :=
  sec.all (fun l => l.toList.all Char.isWhitespace)

/-- Fold of `parseFileDiff` over the retained sections, keeping hunks with a
nonempty change list, threading the id-draw counter. -/
def parseSections (gen : Nat → String) (workspaceRoot : String) :
    List (List String) → Nat → List DiffHunk × Nat
  | [], k => ([], k)
  | sec :: rest, k =>
    let res := parseFileDiffLines gen k sec workspaceRoot
    let tail := parseSections gen workspaceRoot rest res.2
    match res.1 with
    | some hunk => if hunk.changes.length > 0 then (hunk :: tail.1, tail.2) else tail
    | none => tail

/-- `parseDiffOutput`: split the diff text into file sections, drop blank
sections, parse each, and keep the hunks that carry changes. -/
def parseDiffOutput (gen : Nat → String) (k : Nat) (diffOutput : String)
    (workspaceRoot : String) : List DiffHunk × Nat :=
  let sections := (splitDiffSections [] (jsSplitLines diffOutput)).filter
      (fun sec => !sectionIsBlank sec)
  parseSections gen workspaceRoot sections k

/-! ### Session manager (`SessionManager` class in `src/services/diffParser.ts`)

The manager's mutable fields are gathered in `SMState`: the in-memory
`session` and the workspace-state slot under the fixed storage key (`store`).
Each operation is a pure transition returning its JS return value, the new
state, and the events emitted (in emission order).  The `setContext` editor
command calls are UI plumbing outside the core and are not modelled. -/

/-- Events emitted by the session manager. -/
inductive SMEvent where
  | sessionStarted (s : ReviewSession)
  | sessionEnded
  | sessionRestored (s : ReviewSession)
  | changeAccepted (c : DiffChange)
  | changeRejected (c : DiffChange)
  | changeUpdated (c : DiffChange)
  | currentChangeUpdated (c : Option DiffChange)
  | lineMappingUpdated
  | notesUpdated
deriving DecidableEq, Repr

/-- The manager's state: in-memory session plus the persisted slot. -/
structure SMState where
  session : Option ReviewSession
  store : Option SerializedSession
deriving DecidableEq, Repr

/-- The serialized record built by `persistSession`. -/
def serializeSession (s : ReviewSession) : SerializedSession :=
  { commitHash := s.commitHash, shortHash := s.shortHash,
    commitMessage := s.commitMessage, baseCommitHash := s.baseCommitHash,
    changes := s.changes, notes := some s.notes,
    currentIndex := s.currentIndex, startedAt := isoOfInstant s.startedAt }

/-- `persistSession`: write the serialized session to the storage slot (a
no-op when no session is active). -/
def persistSession (st : SMState) : SMState :=
  match st.session with
  | none => st
  | some s => { st with store := some (serializeSession s) }

/-- `restoreSession`: rebuild the in-memory session from the persisted slot;
a missing `notes` array restores as an empty list
(`serialized.notes || []`, and a present empty array is truthy in JS). -/
def restoreSession (store : Option SerializedSession) : Option ReviewSession :=
  match store with
  | none => none
  | some ser => some
    { commitHash := ser.commitHash, shortHash := ser.shortHash,
      commitMessage := ser.commitMessage, baseCommitHash := ser.baseCommitHash,
      changes := ser.changes, notes := ser.notes.getD [],
      currentIndex := ser.currentIndex, startedAt := instantOfISO ser.startedAt }

/-- Pending-filtered view of a session's change list. -/
def pendingOf (s : ReviewSession) : List DiffChange :=
  s.changes.filter (fun c => decide (c.status = ChangeStatus.pending))

/-- `getPendingChanges` (empty when no session is active). -/
def getPendingChanges (st : SMState) : List DiffChange :=
  match st.session with
  | none => []
  | some s => pendingOf s

/-- JS array indexing with an integer index: out-of-range or negative yields
`undefined`, modelled as `none`. -/
def jsIndex {α : Type} (l : List α) (i : Int) : Option α :=
  if i < 0 then none else l.get? i.toNat

/-- `getCurrentChange`: the change at `currentIndex` within the
pending-filtered view, or null when out of range / no session. -/
def getCurrentChange (st : SMState) : Option DiffChange :=
  match st.session with
  | none => none
  | some s =>
    if s.currentIndex < 0 then none
    else
      let pending := pendingOf s
      if (pending.length : Int) ≤ s.currentIndex then none
      else pending.get? s.currentIndex.toNat

/-- `getChangeById` (`changes.find(c => c.id === changeId)`). -/
def getChangeById (st : SMState) (changeId : String) : Option DiffChange :=
  match st.session with
  | none => none
  | some s => s.changes.find? (fun c => decide (c.id = changeId))

/-- Apply `f` to the first element satisfying `p`, leaving the rest alone;
this is the effect of mutating the object found by `Array.prototype.find`. -/
def updateFirst {α : Type} (p : α → Bool) (f : α → α) : List α → List α
  | [] => []
  | a :: as => if p a then f a :: as else a :: updateFirst p f as

/-- `normalizeIndex`: after an accept/reject, wrap the stored index to 0 if
it is now at or past the pending count (left alone when nothing is
pending). -/
def normalizeIndex (st : SMState) : SMState :=
  match st.session with
  | none => st
  | some s =>
    let pending := pendingOf s
    if pending.isEmpty then st
    else if (pending.length : Int) ≤ s.currentIndex then
      { st with session := some { s with currentIndex := 0 } }
    else st

/-- The in-place status mutation `change.status = ...` seen through the
session's change list: the first record with the id takes the new status. -/
def setStatusFirst (changes : List DiffChange) (changeId : String)
    (status : ChangeStatus) : List DiffChange :=
  updateFirst (fun x => decide (x.id = changeId))
    (fun x => { x with status := status }) changes

/-- The session with the first `changeId` record given `status`. -/
def withStatus (s : ReviewSession) (changeId : String) (status : ChangeStatus) :
    ReviewSession :=
  { s with changes := setStatusFirst s.changes changeId status }

/-- `acceptChange`: resolve a pending change to Accepted; a missing id, a
non-pending status, or no active session returns `false` with the state
untouched.  On success the source sets the status, persists, normalizes the
cursor, and emits `changeAccepted` then `changeUpdated` with the mutated
change. -/
def acceptChange (st : SMState) (changeId : String) : Bool × SMState × List SMEvent :=
  match getChangeById st changeId with
  | none => (false, st, [])
  | some c =>
    if c.status ≠ ChangeStatus.pending then (false, st, [])
    else
      let c2 := { c with status := ChangeStatus.accepted }
      let st1 : SMState :=
        { st with session :=
            (st.session.map (fun s => withStatus s changeId ChangeStatus.accepted)) }
      let st2 := normalizeIndex (persistSession st1)
      (true, st2, [SMEvent.changeAccepted c2, SMEvent.changeUpdated c2])

/-- `rejectChange`: identical to `acceptChange` with the Rejected status and
events. -/
def rejectChange (st : SMState) (changeId : String) : Bool × SMState × List SMEvent :=
  match getChangeById st changeId with
  | none => (false, st, [])
  | some c =>
    if c.status ≠ ChangeStatus.pending then (false, st, [])
    else
      let c2 := { c with status := ChangeStatus.rejected }
      let st1 : SMState :=
        { st with session :=
            (st.session.map (fun s => withStatus s changeId ChangeStatus.rejected)) }
      let st2 := normalizeIndex (persistSession st1)
      (true, st2, [SMEvent.changeRejected c2, SMEvent.changeUpdated c2])

/-- `nextChange`: advance the cursor by one modulo the pending count (JS `%`
truncates toward zero, `Int.tmod`), persist, and return the newly current
pending change. -/
def nextChange (st : SMState) : Option DiffChange × SMState × List SMEvent :=
  match st.session with
  | none => (none, st, [])
  | some s =>
    let pending := pendingOf s
    if pending.isEmpty then (none, st, [])
    else
      let i := Int.tmod (s.currentIndex + 1) (pending.length : Int)
      let st1 := persistSession { st with session := some { s with currentIndex := i } }
      let change := jsIndex pending i
      (change, st1, [SMEvent.currentChangeUpdated change])

/-- `prevChange`: retreat the cursor by one, wrapping a negative result to
the last pending position, persist, and return the newly current pending
change. -/
def prevChange (st : SMState) : Option DiffChange × SMState × List SMEvent :=
  match st.session with
  | none => (none, st, [])
  | some s =>
    let pending := pendingOf s
    if pending.isEmpty then (none, st, [])
    else
      let i0 := s.currentIndex - 1
      let i := if i0 < 0 then ((pending.length : Int) - 1) else i0
      let st1 := persistSession { st with session := some { s with currentIndex := i } }
      let change := jsIndex pending i
      (change, st1, [SMEvent.currentChangeUpdated change])

/-- `getSessionStats`: `(accepted, rejected, pending)` counts, all zero with
no active session. -/
def getSessionStats (st : SMState) : Nat × Nat × Nat :=
  match st.session with
  | none => (0, 0, 0)
  | some s =>
    ((s.changes.filter (fun c => decide (c.status = ChangeStatus.accepted))).length,
     (s.changes.filter (fun c => decide (c.status = ChangeStatus.rejected))).length,
     (s.changes.filter (fun c => decide (c.status = ChangeStatus.pending))).length)

/-- `startSession`: unconditionally install a fresh session (`currentIndex =
0`, empty notes, `startedAt = now`), persist it, and emit `sessionStarted`.
The source performs no check against an already-active session. -/
def startSession (st : SMState) (commitHash shortHash commitMessage baseCommitHash : String)
    (changes : List DiffChange) (now : Nat) : SMState × List SMEvent :=
  let s : ReviewSession :=
    { commitHash := commitHash, shortHash := shortHash, commitMessage := commitMessage,
      baseCommitHash := baseCommitHash, changes := changes, notes := [],
      currentIndex := 0, startedAt := now }
  (persistSession { st with session := some s }, [SMEvent.sessionStarted s])

/-- `endSession`: null when no session; otherwise compute final stats, clear
memory and the persisted slot, emit `sessionEnded`, and return the stats. -/
def endSession (st : SMState) : Option (Nat × Nat × Nat) × SMState × List SMEvent :=
  match st.session with
  | none => (none, st, [])
  | some _ =>
    let stats := getSessionStats st
    (some stats, { session := none, store := none }, [SMEvent.sessionEnded])

/-- Modelled from the spec: `setCurrentChange(changeId)` — "locates the given
id's position within the full change list and sets `currentIndex` to that
position directly (not the pending-filtered position)."  The method is
invoked by `src/commands/statusBarActions.ts` and by
`src/__tests__/navigation.test.ts`, but its definition is not among the
provided sources.  Per §4.2 every mutating operation persists; an id not in
the list leaves the state untouched (the spec describes only the found
case). -/
def setCurrentChange (st : SMState) (changeId : String) : SMState :=
  match st.session with
  | none => st
  | some s =>
    match s.changes.findIdx? (fun c => decide (c.id = changeId)) with
    | none => st
    | some i => persistSession { st with session := some { s with currentIndex := (i : Int) } }

/-! ### Line-drift remapping (`updateLineMapping`) -/

/-- One `TextDocumentContentChangeEvent`: a replaced range (0-indexed start
and end lines, as in the editor API) plus its replacement text. -/
structure EditEvent where
  startLine : Nat
  endLine : Nat
  text : String
deriving DecidableEq, Repr

/-- The 1-indexed end line of the replaced span (`change.range.end.line + 1`). -/
def editEndLine1 (e : EditEvent) : Int := (e.endLine : Int) + 1

/-- `lineDelta = linesAdded - linesRemoved`, where `linesRemoved` spans the
1-indexed `[editStartLine, editEndLine]` range and `linesAdded` counts the
newline-separated segments of the replacement text. -/
def lineDelta (e : EditEvent) : Int :=
  let editStartLine : Int := (e.startLine : Int) + 1
  let editEndLine : Int := (e.endLine : Int) + 1
  let linesRemoved := editEndLine - editStartLine + 1
  let linesAdded : Int := ((jsSplitLines e.text).length : Int)
  linesAdded - linesRemoved

/-- Effect of one edit event on one change record: a pending change of the
edited file anchored strictly after `editEndLine` shifts by `lineDelta`;
anything else is untouched. -/
def shiftChange (filePath : String) (e : EditEvent) (c : DiffChange) : DiffChange :=
  if c.filePath = filePath ∧ c.status = ChangeStatus.pending ∧
      c.newLineStart > editEndLine1 e
  then { c with newLineStart := c.newLineStart + lineDelta e } else c

/-- Effect of one edit event on one note: an active note of the edited file
on a line strictly after `editEndLine` shifts by `lineDelta`. -/
def shiftNote (filePath : String) (e : EditEvent) (n : ReviewNote) : ReviewNote :=
  if n.filePath = filePath ∧ n.status = NoteStatus.active ∧ n.line > editEndLine1 e
  then { n with line := n.line + lineDelta e } else n

/-- `updateLineMapping`: normalize the uri's path separators, and for each
edit event in order shift the pending changes and active notes of that file
whose anchors lie strictly after the edit.  The `changesUpdated` /
`notesUpdated` flags record whether any anchor satisfied the shift condition
(even with a zero delta); persistence and the `lineMappingUpdated` /
`notesUpdated` events happen only if a flag was set.  The source iterates
over by-path snapshots (`fileChanges`, with the active-note filter taken
up front) while mutating the shared records in place; mapping the full lists
with the path/status tests inside is the same transformation. -/
def updateLineMapping (st : SMState) (uriPath : String) (edits : List EditEvent) :
    SMState × List SMEvent :=
  match st.session with
  | none => (st, [])
  | some s =>
    let filePath := jsSlashes uriPath
    let fileChanges := s.changes.filter (fun c => decide (c.filePath = filePath))
    let fileNotes := s.notes.filter
      (fun n => decide (n.filePath = filePath) && decide (n.status = NoteStatus.active))
    if fileChanges.isEmpty && fileNotes.isEmpty then (st, [])
    else
      let r := edits.foldl
        (fun (acc : List DiffChange × List ReviewNote × Bool × Bool) e =>
          let cu := acc.2.2.1 || acc.1.any (fun c =>
            decide (c.filePath = filePath) && decide (c.status = ChangeStatus.pending) &&
            decide (c.newLineStart > editEndLine1 e))
          let nu := acc.2.2.2 || acc.2.1.any (fun n =>
            decide (n.filePath = filePath) && decide (n.status = NoteStatus.active) &&
            decide (n.line > editEndLine1 e))
          (acc.1.map (shiftChange filePath e), acc.2.1.map (shiftNote filePath e), cu, nu))
        (s.changes, s.notes, false, false)
      if r.2.2.1 || r.2.2.2 then
        let st1 := persistSession
          { st with session := some { s with changes := r.1, notes := r.2.1 } }
        (st1, (if r.2.2.1 then [SMEvent.lineMappingUpdated] else []) ++
              (if r.2.2.2 then [SMEvent.notesUpdated] else []))
      else (st, [])

/-! ### Sample data used by concrete instantiations -/

/-- A minimal change record with the given id, file and status. -/
def sampleChange (i f : String) (st : ChangeStatus) : DiffChange :=
  { id := i, type := ChangeType.add, filePath := f, oldLineStart := 1, oldLineCount := 0,
    newLineStart := 1, newLineCount := 1, oldContent := [], newContent := ["x"],
    status := st }

/-- A session over the given changes with cursor 0 and no notes. -/
def sampleSession (cs : List DiffChange) : ReviewSession :=
  { commitHash := "h", shortHash := "s", commitMessage := "m", baseCommitHash := "b",
    changes := cs, notes := [], currentIndex := 0, startedAt := 0 }

/-- A manager state holding `sampleSession cs` and an empty storage slot. -/
def sampleState (cs : List DiffChange) : SMState :=
  { session := some (sampleSession cs), store := none }

/-! ### General lemmas about the session manager -/

/-- Persisting never touches the in-memory session. -/
theorem persistSession_session (st : SMState) :
    (persistSession st).session = st.session := by
  cases h : st.session <;> simp [persistSession, h]

/-- Index normalization only rewrites `currentIndex`. -/
theorem normalizeIndex_changes (st : SMState) :
    ((normalizeIndex st).session).map (fun s => s.changes)
      = (st.session).map (fun s => s.changes) := by
  cases h : st.session with
  | none => simp [normalizeIndex, h]
  | some s =>
    simp only [normalizeIndex, h]
    split
    · simp [h]
    · split <;> simp [h]

/-- Index normalization also leaves the notes alone. -/
theorem normalizeIndex_notes (st : SMState) :
    ((normalizeIndex st).session).map (fun s => s.notes)
      = (st.session).map (fun s => s.notes) := by
  cases h : st.session with
  | none => simp [normalizeIndex, h]
  | some s =>
    simp only [normalizeIndex, h]
    split
    · simp [h]
    · split <;> simp [h]

/-- `getChangeById` only looks at the change list. -/
theorem getChangeById_congr (st st' : SMState) (changeId : String)
    (h : (st.session).map (fun s => s.changes) = (st'.session).map (fun s => s.changes)) :
    getChangeById st changeId = getChangeById st' changeId := by
  cases h1 : st.session <;> cases h2 : st'.session <;>
    simp [getChangeById, h1, h2] <;> simp [h1, h2] at h <;> simp [h]

/-- `find?` after mutating the first match through `updateFirst`, when the
update preserves the predicate. -/
theorem updateFirst_find? {α : Type} (p : α → Bool) (f : α → α) (l : List α) (c : α)
    (hfind : l.find? p = some c) (hp : p (f c) = true) :
    (updateFirst p f l).find? p = some (f c) := by
  induction l with
  | nil => simp [List.find?] at hfind
  | cons a as ih =>
    by_cases ha : p a = true
    · rw [List.find?_cons_of_pos _ ha] at hfind
      injection hfind with hca
      subst hca
      simp only [updateFirst, if_pos ha]
      rw [List.find?_cons_of_pos _ hp]
    · rw [List.find?_cons_of_neg _ ha] at hfind
      simp only [updateFirst, if_neg ha]
      rw [List.find?_cons_of_neg _ ha]
      exact ih hfind

/-- Read `getChangeById` through any state whose session carries the given
change list. -/
theorem getChangeById_eq_find (st : SMState) (changeId : String) (cs : List DiffChange)
    (h : (st.session).map (fun s => s.changes) = some cs) :
    getChangeById st changeId = cs.find? (fun c => decide (c.id = changeId)) := by
  cases hs : st.session with
  | none => rw [hs] at h; cases h
  | some s =>
    rw [hs] at h
    injection h with h
    subst h
    simp [getChangeById, hs]

/-! ### C2 -/

/-- C2 counterexample: with a session already active (commit `"h"`), calling
`startSession` does install a new session — the stored session is replaced
by one carrying the new commit hash. -/
theorem startSession_while_active_cex :
    (sampleState [sampleChange "a1" "fA" ChangeStatus.pending]).session.isSome = true ∧
    (startSession (sampleState [sampleChange "a1" "fA" ChangeStatus.pending])
        "h2" "s2" "m2" "b2" [] 0).1.session
      ≠ (sampleState [sampleChange "a1" "fA" ChangeStatus.pending]).session ∧
    ((startSession (sampleState [sampleChange "a1" "fA" ChangeStatus.pending])
        "h2" "s2" "m2" "b2" [] 0).1.session).map (fun s => s.commitHash) = some "h2" := by
  refine ⟨rfl, ?_, rfl⟩
  decide

/-- The session record that `startSession` installs. -/
def freshSession (ch sh msg bh : String) (cs : List DiffChange) (now : Nat) :
    ReviewSession :=
  { commitHash := ch, shortHash := sh, commitMessage := msg, baseCommitHash := bh,
    changes := cs, notes := [], currentIndex := 0, startedAt := now }

/-- C2 (amended): `startSession` performs no active-session check.  Whatever
the current state, it unconditionally installs a new session with
`currentIndex = 0`, empty notes and the given metadata, persists it to the
storage slot, and emits `sessionStarted` carrying the new session; rejecting
a start while a session is active is the caller's responsibility. -/
theorem startSession_unconditional (st : SMState)
    (ch sh msg bh : String) (cs : List DiffChange) (now : Nat) :
    (startSession st ch sh msg bh cs now).1.session
        = some (freshSession ch sh msg bh cs now) ∧
    (startSession st ch sh msg bh cs now).1.store
        = some (serializeSession (freshSession ch sh msg bh cs now)) ∧
    (startSession st ch sh msg bh cs now).2
        = [SMEvent.sessionStarted (freshSession ch sh msg bh cs now)] :=
  ⟨rfl, rfl, rfl⟩

/-! ### C4 -/

/-- Accept/reject fail (returning the state untouched) on an id whose found
change is not Pending. -/
theorem resolve_fails_of_resolved (st : SMState) (changeId : String) (c : DiffChange)
    (hg : getChangeById st changeId = some c) (hcs : c.status ≠ ChangeStatus.pending) :
    acceptChange st changeId = (false, st, []) ∧
    rejectChange st changeId = (false, st, []) :=
  ⟨by simp [acceptChange, hg, hcs], by simp [rejectChange, hg, hcs]⟩

/-- C4: `acceptChange`/`rejectChange` succeed exactly once per change.  With
no active session or an unknown id the lookup fails and the call returns
`false` leaving the whole state (hence every status) untouched; the same
happens when the found change is not Pending.  On a Pending change the call
returns `true` and that change's status becomes Accepted/Rejected; any later
accept or reject of the same id then fails and leaves the state untouched. -/
theorem accept_reject_exactly_once (st : SMState) (changeId : String) :
    (st.session = none → getChangeById st changeId = none) ∧
    (getChangeById st changeId = none →
      acceptChange st changeId = (false, st, []) ∧
      rejectChange st changeId = (false, st, [])) ∧
    (∀ c, getChangeById st changeId = some c → c.status ≠ ChangeStatus.pending →
      acceptChange st changeId = (false, st, []) ∧
      rejectChange st changeId = (false, st, [])) ∧
    (∀ c, getChangeById st changeId = some c → c.status = ChangeStatus.pending →
      (acceptChange st changeId).1 = true ∧
      getChangeById (acceptChange st changeId).2.1 changeId
        = some { c with status := ChangeStatus.accepted } ∧
      acceptChange (acceptChange st changeId).2.1 changeId
        = (false, (acceptChange st changeId).2.1, []) ∧
      rejectChange (acceptChange st changeId).2.1 changeId
        = (false, (acceptChange st changeId).2.1, []) ∧
      (rejectChange st changeId).1 = true ∧
      getChangeById (rejectChange st changeId).2.1 changeId
        = some { c with status := ChangeStatus.rejected } ∧
      acceptChange (rejectChange st changeId).2.1 changeId
        = (false, (rejectChange st changeId).2.1, []) ∧
      rejectChange (rejectChange st changeId).2.1 changeId
        = (false, (rejectChange st changeId).2.1, [])) := by
  refine ⟨?_, ?_, ?_, ?_⟩
  · intro h
    simp [getChangeById, h]
  · intro h
    exact ⟨by simp [acceptChange, h], by simp [rejectChange, h]⟩
  · intro c hc hst
    exact resolve_fails_of_resolved st changeId c hc hst
  · intro c hc hst
    cases hs : st.session with
    | none =>
      rw [show getChangeById st changeId = none by simp [getChangeById, hs]] at hc
      cases hc
    | some s =>
      have hfind : s.changes.find? (fun x => decide (x.id = changeId)) = some c := by
        simpa [getChangeById, hs] using hc
      have hcid : c.id = changeId := by
        simpa using List.find?_some hfind
      have haccst : acceptChange st changeId =
          (true,
           normalizeIndex (persistSession
             { st with session := some (withStatus s changeId ChangeStatus.accepted) }),
           [SMEvent.changeAccepted { c with status := ChangeStatus.accepted },
            SMEvent.changeUpdated { c with status := ChangeStatus.accepted }]) := by
        simp [acceptChange, hc, hst, hs]
      have hrejst : rejectChange st changeId =
          (true,
           normalizeIndex (persistSession
             { st with session := some (withStatus s changeId ChangeStatus.rejected) }),
           [SMEvent.changeRejected { c with status := ChangeStatus.rejected },
            SMEvent.changeUpdated { c with status := ChangeStatus.rejected }]) := by
        simp [rejectChange, hc, hst, hs]
      have hchacc : ((acceptChange st changeId).2.1.session).map (fun x => x.changes)
          = some (setStatusFirst s.changes changeId ChangeStatus.accepted) := by
        rw [haccst]
        show ((normalizeIndex (persistSession _)).session).map _ = _
        rw [normalizeIndex_changes, persistSession_session]
        rfl
      have hchrej : ((rejectChange st changeId).2.1.session).map (fun x => x.changes)
          = some (setStatusFirst s.changes changeId ChangeStatus.rejected) := by
        rw [hrejst]
        show ((normalizeIndex (persistSession _)).session).map _ = _
        rw [normalizeIndex_changes, persistSession_session]
        rfl
      have hfindacc :
          (setStatusFirst s.changes changeId ChangeStatus.accepted).find?
            (fun x => decide (x.id = changeId))
          = some { c with status := ChangeStatus.accepted } :=
        updateFirst_find? _ _ _ _ hfind (by simpa using hcid)
      have hfindrej :
          (setStatusFirst s.changes changeId ChangeStatus.rejected).find?
            (fun x => decide (x.id = changeId))
          = some { c with status := ChangeStatus.rejected } :=
        updateFirst_find? _ _ _ _ hfind (by simpa using hcid)
      have hgacc : getChangeById (acceptChange st changeId).2.1 changeId
          = some { c with status := ChangeStatus.accepted } := by
        rw [getChangeById_eq_find _ _ _ hchacc, hfindacc]
      have hgrej : getChangeById (rejectChange st changeId).2.1 changeId
          = some { c with status := ChangeStatus.rejected } := by
        rw [getChangeById_eq_find _ _ _ hchrej, hfindrej]
      refine ⟨by rw [haccst], hgacc,
        (resolve_fails_of_resolved _ changeId _ hgacc (by simp)).1,
        (resolve_fails_of_resolved _ changeId _ hgacc (by simp)).2,
        by rw [hrejst], hgrej,
        (resolve_fails_of_resolved _ changeId _ hgrej (by simp)).1,
        (resolve_fails_of_resolved _ changeId _ hgrej (by simp)).2⟩

/-- C4 witness: on a concrete one-change pending session, accepting the
change succeeds. -/
theorem accept_reject_exactly_once_witness :
    (acceptChange (sampleState [sampleChange "a1" "fA" ChangeStatus.pending]) "a1").1
      = true :=
  ((accept_reject_exactly_once
      (sampleState [sampleChange "a1" "fA" ChangeStatus.pending]) "a1").2.2.2
    (sampleChange "a1" "fA" ChangeStatus.pending) (by decide) (by decide)).1

/-! ### C6 -/

/-- C6: session persistence round-trips losslessly.  For every active
session, restoring from the state persisted by `persistSession` reproduces
the identical session — same change list, note list, cursor, commit
metadata, and the same `startedAt` instant (the serialized form stores the
instant's string rendering, undone exactly by the restore path).  A
serialized session whose `notes` field is absent restores with an empty
notes list rather than failing. -/
theorem session_persistence_roundtrip :
    (∀ st : SMState, ∀ s : ReviewSession, st.session = some s →
      restoreSession (persistSession st).store = some s) ∧
    (∀ ser : SerializedSession,
      restoreSession (some { ser with notes := none })
        = some { commitHash := ser.commitHash, shortHash := ser.shortHash,
                 commitMessage := ser.commitMessage, baseCommitHash := ser.baseCommitHash,
                 changes := ser.changes, notes := [], currentIndex := ser.currentIndex,
                 startedAt := instantOfISO ser.startedAt }) := by
  constructor
  · intro st s hs
    simp only [persistSession, hs, restoreSession, serializeSession]
    rw [instantOfISO_isoOfInstant]
    rfl
  · intro ser
    rfl

/-- C6 witness: the round trip at a concrete one-change session. -/
theorem session_persistence_roundtrip_witness :
    restoreSession
        (persistSession (sampleState [sampleChange "a1" "fA" ChangeStatus.pending])).store
      = (sampleState [sampleChange "a1" "fA" ChangeStatus.pending]).session :=
  session_persistence_roundtrip.1
    (sampleState [sampleChange "a1" "fA" ChangeStatus.pending])
    (sampleSession [sampleChange "a1" "fA" ChangeStatus.pending]) rfl


/-! ### C7 -/

/-- One-step unfolding of `nextChange` on an active session with a nonempty
pending view. -/
theorem nextChange_eq (st : SMState) (s : ReviewSession) (hs : st.session = some s)
    (hne : (pendingOf s).isEmpty = false) :
    nextChange st =
      (jsIndex (pendingOf s) ((s.currentIndex + 1).tmod ((pendingOf s).length : Int)),
       persistSession { st with session :=
         (some { s with currentIndex := (s.currentIndex + 1).tmod ((pendingOf s).length : Int) }) },
       [SMEvent.currentChangeUpdated
         (jsIndex (pendingOf s) ((s.currentIndex + 1).tmod ((pendingOf s).length : Int)))]) := by
  simp [nextChange, hs, hne]

/-- One-step unfolding of `prevChange` on an active session with a nonempty
pending view. -/
theorem prevChange_eq (st : SMState) (s : ReviewSession) (hs : st.session = some s)
    (hne : (pendingOf s).isEmpty = false) :
    prevChange st =
      (jsIndex (pendingOf s)
         (if s.currentIndex - 1 < 0 then ((pendingOf s).length : Int) - 1 else s.currentIndex - 1),
       persistSession { st with session :=
         (some { s with currentIndex :=
           (if s.currentIndex - 1 < 0 then ((pendingOf s).length : Int) - 1
            else s.currentIndex - 1) }) },
       [SMEvent.currentChangeUpdated
         (jsIndex (pendingOf s)
           (if s.currentIndex - 1 < 0 then ((pendingOf s).length : Int) - 1
            else s.currentIndex - 1))]) := by
  simp [prevChange, hs, hne]

/-! ### C1 -/


/-- A session with replaced cursor and change list. -/
def withIdxChanges (s : ReviewSession) (i : Int) (cs : List DiffChange) : ReviewSession :=
  { s with currentIndex := i, changes := cs }

/-- A session with replaced cursor. -/
def withIdx (s : ReviewSession) (i : Int) : ReviewSession :=
  { s with currentIndex := i }

/-- `normalizeIndex` is the identity when the stored cursor is already below
the pending count. -/
theorem normalizeIndex_id (st : SMState) (s : ReviewSession) (hs : st.session = some s)
    (h : ¬ ((pendingOf s).length : Int) ≤ s.currentIndex) : normalizeIndex st = st := by
  simp [normalizeIndex, hs, h]

/-- C1: `setCurrentChange` sets `currentIndex` to the id's position in the
full (unfiltered) change list; and in a session with changes
`[A1, A2, B1, B2]` (all pending, ids distinct), jumping to `B1` sets the
cursor to 2, and accepting `B1` then leaves `getCurrentChange()` returning
`B2` — the next pending change of the same file in list order — not `A1`.
`setCurrentChange` itself is modelled from the spec (see its definition). -/
theorem jump_then_accept (st : SMState) :
    (∀ s changeId i, st.session = some s →
        s.changes.findIdx? (fun c => decide (c.id = changeId)) = some i →
        ((setCurrentChange st changeId).session).map (fun x => x.currentIndex)
          = some (i : Int)) ∧
    (∀ s a1 a2 b1 b2, st.session = some s → s.changes = [a1, a2, b1, b2] →
        a1.status = ChangeStatus.pending → a2.status = ChangeStatus.pending →
        b1.status = ChangeStatus.pending → b2.status = ChangeStatus.pending →
        a1.id ≠ b1.id → a2.id ≠ b1.id → b2.id ≠ b1.id →
      ((setCurrentChange st b1.id).session).map (fun x => x.currentIndex) = some 2 ∧
      getCurrentChange (acceptChange (setCurrentChange st b1.id) b1.id).2.1 = some b2) := by
  constructor
  · intro s changeId i hs hfi
    simp [setCurrentChange, hs, hfi, persistSession_session]
  · intro s a1 a2 b1 b2 hs hch ha1 ha2 hb1 hb2 hne1 hne2 hne3
    have hfi : s.changes.findIdx? (fun c => decide (c.id = b1.id)) = some 2 := by
      rw [hch]
      simp [List.findIdx?_cons, hne1, hne2]
    have hst1 : (setCurrentChange st b1.id).session = some (withIdx s 2) := by
      simp [setCurrentChange, hs, hfi, persistSession_session]
      rfl
    refine ⟨by rw [hst1]; rfl, ?_⟩
    have hg1 : getChangeById (setCurrentChange st b1.id) b1.id = some b1 := by
      rw [getChangeById_eq_find _ _ s.changes (by rw [hst1]; rfl)]
      rw [hch]
      simp [List.find?_cons, hne1, hne2]
    have haccst : acceptChange (setCurrentChange st b1.id) b1.id =
        (true,
         normalizeIndex (persistSession { (setCurrentChange st b1.id) with session :=
           (some (withStatus (withIdx s 2) b1.id ChangeStatus.accepted)) }),
         [SMEvent.changeAccepted { b1 with status := ChangeStatus.accepted },
          SMEvent.changeUpdated { b1 with status := ChangeStatus.accepted }]) := by
      simp [acceptChange, hg1, hb1, hst1]
    have hws : withStatus (withIdx s 2) b1.id ChangeStatus.accepted
        = withIdxChanges s 2 [a1, a2, { b1 with status := ChangeStatus.accepted }, b2] := by
      simp [withStatus, setStatusFirst, updateFirst, withIdx, withIdxChanges, hch,
        hne1, hne2]
    have hpend : pendingOf (withIdxChanges s 2
        [a1, a2, { b1 with status := ChangeStatus.accepted }, b2]) = [a1, a2, b2] := by
      simp [pendingOf, withIdxChanges, ha1, ha2, hb2]
    have hsess2 : (acceptChange (setCurrentChange st b1.id) b1.id).2.1.session
        = some (withIdxChanges s 2
            [a1, a2, { b1 with status := ChangeStatus.accepted }, b2]) := by
      rw [haccst]
      show (normalizeIndex (persistSession _)).session = _
      rw [hws]
      rw [normalizeIndex_id _ _ (by rw [persistSession_session])
        (by rw [hpend]; simp [withIdxChanges])]
      rw [persistSession_session]
    simp only [getCurrentChange, hsess2, hpend]
    simp [withIdxChanges]


/-- C1 witness: the jump-then-accept scenario at a concrete four-change
session. -/
theorem jump_then_accept_witness :
    getCurrentChange (acceptChange (setCurrentChange
        (sampleState [sampleChange "a1" "fA" ChangeStatus.pending,
          sampleChange "a2" "fA" ChangeStatus.pending,
          sampleChange "b1" "fB" ChangeStatus.pending,
          sampleChange "b2" "fB" ChangeStatus.pending]) "b1") "b1").2.1
      = some (sampleChange "b2" "fB" ChangeStatus.pending) :=
  ((jump_then_accept
      (sampleState [sampleChange "a1" "fA" ChangeStatus.pending,
        sampleChange "a2" "fA" ChangeStatus.pending,
        sampleChange "b1" "fB" ChangeStatus.pending,
        sampleChange "b2" "fB" ChangeStatus.pending])).2
    (sampleSession [sampleChange "a1" "fA" ChangeStatus.pending,
      sampleChange "a2" "fA" ChangeStatus.pending,
      sampleChange "b1" "fB" ChangeStatus.pending,
      sampleChange "b2" "fB" ChangeStatus.pending])
    (sampleChange "a1" "fA" ChangeStatus.pending)
    (sampleChange "a2" "fA" ChangeStatus.pending)
    (sampleChange "b1" "fB" ChangeStatus.pending)
    (sampleChange "b2" "fB" ChangeStatus.pending)
    rfl rfl rfl rfl rfl rfl (by decide) (by decide) (by decide)).2


/-- An in-range JS index read yields an element of the list. -/
theorem jsIndex_some_mem {α : Type} (l : List α) (i : Int) (h0 : 0 ≤ i)
    (hlt : i < (l.length : Int)) : ∃ c, jsIndex l i = some c ∧ c ∈ l := by
  have hnat : i.toNat < l.length := by omega
  refine ⟨l.get ⟨i.toNat, hnat⟩, ?_, List.get_mem _ _ _⟩
  simp [jsIndex, not_lt.mpr h0, List.get?_eq_get hnat]

/-- C7: `nextChange`/`prevChange` move `currentIndex` by one within the
pending-filtered view, wrapping modulo the pending count, and return the
newly current pending change; with an empty pending view or no active
session they return null and leave the state untouched.  In particular, from
a session with three pending changes and cursor 0, three successive
`nextChange` calls return the pending changes at positions 1, 2, 0.  (The
in-range side conditions on the stored cursor reflect that JS array indexing
out of range would yield `undefined`.) -/
theorem navigation_wrap (st : SMState) :
    (st.session = none → nextChange st = (none, st, []) ∧ prevChange st = (none, st, [])) ∧
    (∀ s, st.session = some s → pendingOf s = [] →
      nextChange st = (none, st, []) ∧ prevChange st = (none, st, [])) ∧
    (∀ s, st.session = some s → pendingOf s ≠ [] → 0 ≤ s.currentIndex →
      (nextChange st).1
          = jsIndex (pendingOf s) ((s.currentIndex + 1).tmod ((pendingOf s).length : Int)) ∧
      (∃ c, (nextChange st).1 = some c ∧ c ∈ pendingOf s) ∧
      ((nextChange st).2.1.session).map (fun x => x.currentIndex)
          = some ((s.currentIndex + 1).tmod ((pendingOf s).length : Int))) ∧
    (∀ s, st.session = some s → pendingOf s ≠ [] →
        s.currentIndex ≤ ((pendingOf s).length : Int) →
      (prevChange st).1
          = jsIndex (pendingOf s)
              (if s.currentIndex - 1 < 0 then ((pendingOf s).length : Int) - 1
               else s.currentIndex - 1) ∧
      (∃ c, (prevChange st).1 = some c ∧ c ∈ pendingOf s) ∧
      ((prevChange st).2.1.session).map (fun x => x.currentIndex)
          = some (if s.currentIndex - 1 < 0 then ((pendingOf s).length : Int) - 1
                  else s.currentIndex - 1)) ∧
    (∀ s c1 c2 c3, st.session = some s → s.changes = [c1, c2, c3] →
        c1.status = ChangeStatus.pending → c2.status = ChangeStatus.pending →
        c3.status = ChangeStatus.pending → s.currentIndex = 0 →
      (nextChange st).1 = some c2 ∧
      (nextChange (nextChange st).2.1).1 = some c3 ∧
      (nextChange (nextChange (nextChange st).2.1).2.1).1 = some c1) := by
  refine ⟨?_, ?_, ?_, ?_, ?_⟩
  · intro h
    exact ⟨by simp [nextChange, h], by simp [prevChange, h]⟩
  · intro s hs hp
    exact ⟨by simp [nextChange, hs, hp], by simp [prevChange, hs, hp]⟩
  · intro s hs hne hi
    have hlen : 0 < ((pendingOf s).length : Int) := by
      have := List.length_pos.mpr hne
      exact_mod_cast this
    have hEmp : (pendingOf s).isEmpty = false := by
      simpa [List.isEmpty_iff] using hne
    have h0 : 0 ≤ (s.currentIndex + 1).tmod ((pendingOf s).length : Int) := by
      rw [Int.tmod_eq_emod (by omega) (le_of_lt hlen)]
      exact Int.emod_nonneg _ (by omega)
    have hlt : (s.currentIndex + 1).tmod ((pendingOf s).length : Int)
        < ((pendingOf s).length : Int) := by
      rw [Int.tmod_eq_emod (by omega) (le_of_lt hlen)]
      exact Int.emod_lt_of_pos _ hlen
    rw [nextChange_eq st s hs hEmp]
    refine ⟨rfl, jsIndex_some_mem _ _ h0 hlt, ?_⟩
    rw [persistSession_session]
    rfl
  · intro s hs hne hi
    have hlen : 0 < ((pendingOf s).length : Int) := by
      have := List.length_pos.mpr hne
      exact_mod_cast this
    have hEmp : (pendingOf s).isEmpty = false := by
      simpa [List.isEmpty_iff] using hne
    have h0 : 0 ≤ (if s.currentIndex - 1 < 0 then ((pendingOf s).length : Int) - 1
        else s.currentIndex - 1) := by
      split <;> omega
    have hlt : (if s.currentIndex - 1 < 0 then ((pendingOf s).length : Int) - 1
        else s.currentIndex - 1) < ((pendingOf s).length : Int) := by
      split <;> omega
    rw [prevChange_eq st s hs hEmp]
    refine ⟨rfl, jsIndex_some_mem _ _ h0 hlt, ?_⟩
    rw [persistSession_session]
    rfl
  · intro s c1 c2 c3 hs hch h1 h2 h3 hcur
    have hp : pendingOf s = [c1, c2, c3] := by
      simp [pendingOf, hch, h1, h2, h3]
    have hEmp : (pendingOf s).isEmpty = false := by simp [hp]
    have e1 : nextChange st =
        (some c2,
         persistSession { st with session := (some { s with currentIndex := 1 }) },
         [SMEvent.currentChangeUpdated (some c2)]) := by
      rw [nextChange_eq st s hs hEmp]
      have hidx : (s.currentIndex + 1).tmod ((pendingOf s).length : Int) = 1 := by
        rw [hcur, hp]
        simp only [List.length_cons, List.length_nil]
        decide
      rw [hidx]
      simp [jsIndex, hp]
    have hs1 : (nextChange st).2.1.session = some { s with currentIndex := 1 } := by
      rw [e1]
      show (persistSession _).session = _
      rw [persistSession_session]
    have hp1 : pendingOf { s with currentIndex := (1 : Int) } = [c1, c2, c3] := by
      simpa [pendingOf] using hp
    have hEmp1 : (pendingOf { s with currentIndex := (1 : Int) }).isEmpty = false := by
      simp [hp1]
    have e2 : nextChange (nextChange st).2.1 =
        (some c3,
         persistSession { (nextChange st).2.1 with
           session := (some { s with currentIndex := 2 }) },
         [SMEvent.currentChangeUpdated (some c3)]) := by
      rw [nextChange_eq (nextChange st).2.1 _ hs1 hEmp1]
      have hidx : (((1 : Int)) + 1).tmod ((pendingOf { s with currentIndex := (1 : Int) }).length : Int) = 2 := by
        rw [hp1]
        simp only [List.length_cons, List.length_nil]
        decide
      have h23 : Int.tmod 2 3 = 2 := by decide
      simp only [hp1, hidx]
      simp [jsIndex, h23]
    have hs2 : (nextChange (nextChange st).2.1).2.1.session
        = some { s with currentIndex := 2 } := by
      rw [e2]
      show (persistSession _).session = _
      rw [persistSession_session]
    have hp2 : pendingOf { s with currentIndex := (2 : Int) } = [c1, c2, c3] := by
      simpa [pendingOf] using hp
    have hEmp2 : (pendingOf { s with currentIndex := (2 : Int) }).isEmpty = false := by
      simp [hp2]
    have e3 : (nextChange (nextChange (nextChange st).2.1).2.1).1 = some c1 := by
      rw [nextChange_eq _ _ hs2 hEmp2]
      have hidx : (((2 : Int)) + 1).tmod ((pendingOf { s with currentIndex := (2 : Int) }).length : Int) = 0 := by
        rw [hp2]
        simp only [List.length_cons, List.length_nil]
        decide
      have h33 : Int.tmod 3 3 = 0 := by decide
      simp only [hp2, hidx]
      simp [jsIndex, h33]
    exact ⟨by rw [e1], by rw [e2], e3⟩


/-- C7 witness: the three-change wrap at a concrete session. -/
theorem navigation_wrap_witness :
    (nextChange (sampleState [sampleChange "c1" "f" ChangeStatus.pending,
        sampleChange "c2" "f" ChangeStatus.pending,
        sampleChange "c3" "f" ChangeStatus.pending])).1
      = some (sampleChange "c2" "f" ChangeStatus.pending) :=
  ((navigation_wrap (sampleState [sampleChange "c1" "f" ChangeStatus.pending,
      sampleChange "c2" "f" ChangeStatus.pending,
      sampleChange "c3" "f" ChangeStatus.pending])).2.2.2.2
    (sampleSession [sampleChange "c1" "f" ChangeStatus.pending,
      sampleChange "c2" "f" ChangeStatus.pending,
      sampleChange "c3" "f" ChangeStatus.pending])
    (sampleChange "c1" "f" ChangeStatus.pending)
    (sampleChange "c2" "f" ChangeStatus.pending)
    (sampleChange "c3" "f" ChangeStatus.pending)
    rfl rfl rfl rfl rfl rfl).1

/-! ### C5 -/


/-! ### C5 -/

/-- C5: `updateLineMapping` shifts exactly the right anchors.  For an edit
event, `lineDelta = linesAdded - linesRemoved`; applying the mapping over a
single event rewrites the session to `shiftChange`/`shiftNote` images of the
change and note lists, where a pending change of the edited file with
`newLineStart` strictly past `editEndLine` gains `lineDelta` (and only that
field), an active note of the file past the edit gains `lineDelta` on
`line`, and any record that is resolved, anchored at or before the edit
line, or in another file is returned untouched. -/
theorem updateLineMapping_frame (st : SMState) (uriPath : String) (e : EditEvent) :
    (lineDelta e = ((jsSplitLines e.text).length : Int)
        - (((e.endLine : Int) + 1) - ((e.startLine : Int) + 1) + 1)) ∧
    (∀ c, c.status ≠ ChangeStatus.pending → shiftChange (jsSlashes uriPath) e c = c) ∧
    (∀ c, ¬ c.newLineStart > editEndLine1 e → shiftChange (jsSlashes uriPath) e c = c) ∧
    (∀ c, c.filePath ≠ jsSlashes uriPath → shiftChange (jsSlashes uriPath) e c = c) ∧
    (∀ c, c.filePath = jsSlashes uriPath → c.status = ChangeStatus.pending →
        c.newLineStart > editEndLine1 e →
        shiftChange (jsSlashes uriPath) e c
          = { c with newLineStart := c.newLineStart + lineDelta e }) ∧
    (∀ n, n.status ≠ NoteStatus.active → shiftNote (jsSlashes uriPath) e n = n) ∧
    (∀ n, ¬ n.line > editEndLine1 e → shiftNote (jsSlashes uriPath) e n = n) ∧
    (∀ n, n.filePath ≠ jsSlashes uriPath → shiftNote (jsSlashes uriPath) e n = n) ∧
    (∀ n, n.filePath = jsSlashes uriPath → n.status = NoteStatus.active →
        n.line > editEndLine1 e →
        shiftNote (jsSlashes uriPath) e n = { n with line := n.line + lineDelta e }) ∧
    (∀ s, st.session = some s →
      ((updateLineMapping st uriPath [e]).1.session).map (fun x => (x.changes, x.notes))
        = some (s.changes.map (shiftChange (jsSlashes uriPath) e),
                s.notes.map (shiftNote (jsSlashes uriPath) e))) := by
  refine ⟨rfl, ?_, ?_, ?_, ?_, ?_, ?_, ?_, ?_, ?_⟩
  · intro c h
    simp [shiftChange, h]
  · intro c h
    simp [shiftChange, h]
  · intro c h
    simp [shiftChange, h]
  · intro c h1 h2 h3
    simp [shiftChange, h1, h2, h3]
  · intro n h
    simp [shiftNote, h]
  · intro n h
    simp [shiftNote, h]
  · intro n h
    simp [shiftNote, h]
  · intro n h1 h2 h3
    simp [shiftNote, h1, h2, h3]
  · intro s hs
    simp only [updateLineMapping, hs]
    split
    · next hempty =>
      rw [Bool.and_eq_true] at hempty
      have hc : ∀ c ∈ s.changes, shiftChange (jsSlashes uriPath) e c = c := by
        intro c hc
        have := (List.isEmpty_iff.mp hempty.1)
        have hnp : ¬ (c.filePath = jsSlashes uriPath) := by
          intro hp
          have := List.filter_eq_nil_iff.mp this c hc
          simp [hp] at this
        simp [shiftChange, hnp]
      have hn : ∀ n ∈ s.notes, shiftNote (jsSlashes uriPath) e n = n := by
        intro n hn
        have := (List.isEmpty_iff.mp hempty.2)
        have hnp := List.filter_eq_nil_iff.mp this n hn
        rw [Bool.and_eq_true, not_and] at hnp
        simp only [shiftNote]
        by_cases hp : n.filePath = jsSlashes uriPath
        · have := hnp (by simp [hp])
          have hna : ¬ n.status = NoteStatus.active := by simpa using this
          simp [hp, hna]
        · simp [hp]
      simp [hs, List.map_congr_left hc, List.map_congr_left hn]
    · next hnonempty =>
      simp only [List.foldl_cons, List.foldl_nil]
      split
      · next hflag =>
        rw [persistSession_session]
        rfl
      · next hflag =>
        simp only [Bool.not_eq_true, Bool.false_or, Bool.or_eq_false_iff] at hflag
        have hcu := hflag.1
        have hnu := hflag.2
        have hc : ∀ c ∈ s.changes, shiftChange (jsSlashes uriPath) e c = c := by
          intro c hcm
          have := List.any_eq_false.mp hcu c hcm
          simp only [Bool.and_eq_true, decide_eq_true_eq, not_and] at this
          simp only [shiftChange]
          rw [if_neg]
          intro hcond
          have h1 := hcond.1
          have h2 := hcond.2.1
          have h3 := hcond.2.2
          exact absurd (by simpa using h3) (by simpa [h1, h2] using this)
        have hn : ∀ n ∈ s.notes, shiftNote (jsSlashes uriPath) e n = n := by
          intro n hnm
          have := List.any_eq_false.mp hnu n hnm
          simp only [Bool.and_eq_true, decide_eq_true_eq, not_and] at this
          simp only [shiftNote]
          rw [if_neg]
          intro hcond
          have h1 := hcond.1
          have h2 := hcond.2.1
          have h3 := hcond.2.2
          exact absurd (by simpa using h3) (by simpa [h1, h2] using this)
        simp [hs, List.map_congr_left hc, List.map_congr_left hn]


/-- C5 witness: a three-line insertion at the top of the file shifts a
concrete pending change anchored below it. -/
theorem updateLineMapping_frame_witness :
    ((updateLineMapping (sampleState [sampleChange "a1" "/f.ts" ChangeStatus.pending])
        "/f.ts" [{ startLine := 0, endLine := 0, text := "p\nq\nr" }]).1.session).map
          (fun x => (x.changes, x.notes))
      = some ((sampleSession [sampleChange "a1" "/f.ts" ChangeStatus.pending]).changes.map
            (shiftChange (jsSlashes "/f.ts") { startLine := 0, endLine := 0, text := "p\nq\nr" }),
          (sampleSession [sampleChange "a1" "/f.ts" ChangeStatus.pending]).notes.map
            (shiftNote (jsSlashes "/f.ts") { startLine := 0, endLine := 0, text := "p\nq\nr" })) :=
  (updateLineMapping_frame (sampleState [sampleChange "a1" "/f.ts" ChangeStatus.pending])
      "/f.ts" { startLine := 0, endLine := 0, text := "p\nq\nr" }).2.2.2.2.2.2.2.2.2
    (sampleSession [sampleChange "a1" "/f.ts" ChangeStatus.pending]) rfl


/-! ### C3 -/

/-- A run of elements all satisfying `p` is taken whole by `takeWhile`. -/
theorem takeWhile_append_all {α : Type} (p : α → Bool) (l1 l2 : List α)
    (h : ∀ a ∈ l1, p a = true) :
    (l1 ++ l2).takeWhile p = l1 ++ l2.takeWhile p := by
  induction l1 with
  | nil => simp
  | cons a as ih =>
    simp only [List.cons_append, List.takeWhile_cons, h a (by simp), if_true]
    rw [ih (fun x hx => h x (by simp [hx]))]

/-- A run of elements all satisfying `p` is dropped whole by `dropWhile`. -/
theorem dropWhile_append_all {α : Type} (p : α → Bool) (l1 l2 : List α)
    (h : ∀ a ∈ l1, p a = true) :
    (l1 ++ l2).dropWhile p = l2.dropWhile p := by
  induction l1 with
  | nil => simp
  | cons a as ih =>
    simp only [List.cons_append, List.dropWhile_cons, h a (by simp), if_true]
    exact ih (fun x hx => h x (by simp [hx]))

/-- `takeWhile` stops immediately on a failing head. -/
theorem takeWhile_nil_head {α : Type} (p : α → Bool) (l : List α)
    (h : ∀ a, l.head? = some a → p a = false) : l.takeWhile p = [] := by
  cases l with
  | nil => rfl
  | cons a as => simp [List.takeWhile_cons, h a rfl]

/-- `dropWhile` keeps the whole list when the head fails. -/
theorem dropWhile_id_head {α : Type} (p : α → Bool) (l : List α)
    (h : ∀ a, l.head? = some a → p a = false) : l.dropWhile p = l := by
  cases l with
  | nil => rfl
  | cons a as => simp [List.dropWhile_cons, h a rfl]

/-- A line starting with one character does not start with a different one. -/
theorem jsStartsWith_char_ne (l : String) (c c' : Char)
    (h : jsStartsWith l (String.mk [c]) = true) (hne : c' ≠ c) :
    jsStartsWith l (String.mk [c']) = false := by
  have h' : [c] <+: l.toList := by simpa [jsStartsWith] using h
  have hfalse : ¬ ([c'] <+: l.toList) := by
    rcases h' with ⟨t, ht⟩
    rintro ⟨t', ht'⟩
    rw [← ht] at ht'
    have hcc : c' :: t' = c :: t := by simpa using ht'
    injection hcc with h1 _
    exact hne h1
  have hb : ([c'].isPrefixOf l.toList) = false := by
    rw [Bool.eq_false_iff]
    intro hcon
    exact hfalse (by simpa [List.isPrefixOf_iff_prefix] using hcon)
  simpa [jsStartsWith] using hb

/-- C3: in any hunk body, a deletion run of length `d ≥ 1` immediately
followed by an addition run of length `a ≥ 1` (maximal: the line after the
addition run, if any, is not an addition) yields exactly one Modify change —
never per-line records, whatever `d` and `a` — anchored at the `oldLine` /
`newLine` cursor values in force before either run advanced, with
`oldLineCount = d`, `newLineCount = a`, and the two runs' texts with the
leading marker stripped as `oldContent`/`newContent`; parsing then resumes
after the run with the cursors advanced by `d` and `a`. -/
theorem modify_pairing (gen : Nat → String) (k : Nat) (ds as rest : List String)
    (o n : Int) (path : String)
    (hds : ds ≠ []) (hdsall : ∀ l ∈ ds, jsStartsWith l "-" = true)
    (has : as ≠ []) (hasall : ∀ l ∈ as, jsStartsWith l "+" = true)
    (hrest : ∀ l, rest.head? = some l → jsStartsWith l "+" = false) :
    parseHunkContent gen k (ds ++ as ++ rest) o n path =
      ({ id := gen k, type := ChangeType.modify, filePath := path, oldLineStart := o,
         oldLineCount := ds.length, newLineStart := n, newLineCount := as.length,
         oldContent := ds.map (fun l => l.drop 1), newContent := as.map (fun l => l.drop 1),
         status := ChangeStatus.pending } ::
           (parseHunkContent gen (k + 1) rest (o + ds.length) (n + as.length) path).1,
       (parseHunkContent gen (k + 1) rest (o + ds.length) (n + as.length) path).2) := by
  cases ds with
  | nil => exact absurd rfl hds
  | cons d0 ds0 =>
  cases as with
  | nil => exact absurd rfl has
  | cons a0 as0 =>
  have hd0 : jsStartsWith d0 "-" = true := hdsall d0 (by simp)
  have hd0sp : jsStartsWith d0 " " = false := jsStartsWith_char_ne d0 '-' ' ' hd0 (by decide)
  have ha0 : jsStartsWith a0 "+" = true := hasall a0 (by simp)
  have htw1 : ((d0 :: ds0) ++ ((a0 :: as0) ++ rest)).takeWhile
      (fun l => jsStartsWith l "-") = d0 :: ds0 := by
    rw [takeWhile_append_all _ _ _ hdsall, takeWhile_nil_head]
    · simp
    · intro a ha
      injection ha with ha
      subst ha
      exact jsStartsWith_char_ne a0 '+' '-' ha0 (by decide)
  have hdw1 : ((d0 :: ds0) ++ ((a0 :: as0) ++ rest)).dropWhile
      (fun l => jsStartsWith l "-") = (a0 :: as0) ++ rest := by
    rw [dropWhile_append_all _ _ _ hdsall, dropWhile_id_head]
    intro a ha
    injection ha with ha
    subst ha
    exact jsStartsWith_char_ne a0 '+' '-' ha0 (by decide)
  have htw2 : ((a0 :: as0) ++ rest).takeWhile (fun l => jsStartsWith l "+")
      = a0 :: as0 := by
    rw [takeWhile_append_all _ _ _ hasall, takeWhile_nil_head _ _ hrest]
    simp
  have hdw2 : ((a0 :: as0) ++ rest).dropWhile (fun l => jsStartsWith l "+") = rest := by
    rw [dropWhile_append_all _ _ _ hasall, dropWhile_id_head _ _ hrest]
  rw [show (d0 :: ds0) ++ (a0 :: as0) ++ rest = d0 :: (ds0 ++ ((a0 :: as0) ++ rest))
    from by simp]
  rw [parseHunkContent]
  simp only [hd0sp, Bool.false_eq_true, if_false, hd0, dif_pos]
  rw [show d0 :: (ds0 ++ ((a0 :: as0) ++ rest)) = (d0 :: ds0) ++ ((a0 :: as0) ++ rest)
    from by simp]
  rw [htw1, hdw1, htw2, hdw2]
  simp


/-- C3 witness: a 2-deletion / 1-addition run in a concrete hunk body. -/
theorem modify_pairing_witness :
    (parseHunkContent (fun j => Nat.repr j) 0 ["-a", "-b", "+c", " ctx"] 5 7 "p").1
      = [{ id := "0", type := ChangeType.modify, filePath := "p", oldLineStart := 5,
           oldLineCount := 2, newLineStart := 7, newLineCount := 1,
           oldContent := ["a", "b"], newContent := ["c"],
           status := ChangeStatus.pending }] := by
  have h := modify_pairing (fun j => Nat.repr j) 0 ["-a", "-b"] ["+c"] [" ctx"] 5 7 "p"
    (by decide) (by decide) (by decide) (by decide)
    (by intro l hl; injection hl with hl; subst hl; decide)
  rw [show (["-a", "-b", "+c", " ctx"] : List String)
    = ["-a", "-b"] ++ ["+c"] ++ [" ctx"] from rfl, h]
  simp [parseHunkContent, jsStartsWith, List.isPrefixOf]
  decide


/-! ### C9 -/

/-- The per-change creation invariant: Pending status, the hunk's absolute
path, and the Add/Delete/Modify count-and-content shape. -/
def changeInv (path : String) (c : DiffChange) : Prop :=
  c.status = ChangeStatus.pending ∧ c.filePath = path ∧
  (c.type = ChangeType.add → c.oldLineCount = 0 ∧ c.oldContent = []) ∧
  (c.type = ChangeType.delete → c.newLineCount = 0 ∧ c.newContent = []) ∧
  (c.type = ChangeType.modify → 1 ≤ c.oldLineCount ∧ 1 ≤ c.newLineCount ∧
    c.oldContent ≠ [] ∧ c.newContent ≠ [])

/-- Every change emitted by the hunk-content parser satisfies the creation
invariant for its hunk's absolute path. -/
theorem parseHunkContent_inv (gen : Nat → String) (k : Nat) (lines : List String)
    (o n : Int) (path : String) :
    ∀ c ∈ (parseHunkContent gen k lines o n path).1, changeInv path c := by
  induction k, lines, o, n, path using parseHunkContent.induct gen with
  | case1 k o n path =>
    intro c hc
    simp [parseHunkContent] at hc
  | case2 k o n path line rest hsp ih =>
    intro c hc
    rw [parseHunkContent] at hc
    simp only [hsp, if_true] at hc
    exact ih c hc
  | case3 k o n path line rest hsp hdash ds r1 as r2 ih =>
    intro c hc
    rw [parseHunkContent] at hc
    simp only [hsp, Bool.false_eq_true, if_false, hdash, dif_pos] at hc
    rcases List.mem_cons.mp hc with hc | hc
    · by_cases hlen : as.length > 0
      · rw [if_pos hlen] at hc
        subst hc
        refine ⟨rfl, rfl, fun h => ChangeType.noConfusion h,
          fun h => ChangeType.noConfusion h, fun _ => ⟨?_, ?_, ?_, ?_⟩⟩
        · show 1 ≤ (ds.map (fun l => l.drop 1)).length
          rw [List.length_map]
          show 1 ≤ ((line :: rest).takeWhile (fun l => jsStartsWith l "-")).length
          rw [List.takeWhile_cons, if_pos hdash]
          simp
        · show 1 ≤ (as.map (fun l => l.drop 1)).length
          rw [List.length_map]
          omega
        · show ds.map (fun l => l.drop 1) ≠ []
          have : ds = line :: (rest.takeWhile (fun l => jsStartsWith l "-")) := by
            show (line :: rest).takeWhile (fun l => jsStartsWith l "-") = _
            rw [List.takeWhile_cons, if_pos hdash]
          rw [this]
          simp
        · show as.map (fun l => l.drop 1) ≠ []
          intro hmap
          rw [List.map_eq_nil] at hmap
          rw [hmap] at hlen
          simp at hlen
      · rw [if_neg hlen] at hc
        subst hc
        exact ⟨rfl, rfl, fun h => ChangeType.noConfusion h,
          fun _ => ⟨rfl, rfl⟩, fun h => ChangeType.noConfusion h⟩
    · exact ih c hc
  | case4 k o n path line rest hsp hdash hplus as r1 ih =>
    intro c hc
    rw [parseHunkContent] at hc
    simp only [hsp, Bool.false_eq_true, if_false, hdash, hplus, dif_pos, dif_neg] at hc
    rcases List.mem_cons.mp hc with hc | hc
    · subst hc
      exact ⟨rfl, rfl, fun _ => ⟨rfl, rfl⟩,
        fun h => ChangeType.noConfusion h, fun h => ChangeType.noConfusion h⟩
    · exact ih c hc
  | case5 k o n path line rest hsp hdash hplus ih =>
    intro c hc
    rw [parseHunkContent] at hc
    simp only [hsp, Bool.false_eq_true, if_false, hdash, hplus, dif_neg] at hc
    exact ih c hc

/-- The hunk-content parser draws one fresh id per emitted change: the final
counter advances by the output length and the ids are exactly the supply
values at the consecutive draw indices. -/
theorem parseHunkContent_ids (gen : Nat → String) (k : Nat) (lines : List String)
    (o n : Int) (path : String) :
    (parseHunkContent gen k lines o n path).2
        = k + (parseHunkContent gen k lines o n path).1.length ∧
    (parseHunkContent gen k lines o n path).1.map (fun c => c.id)
        = (List.range' k (parseHunkContent gen k lines o n path).1.length).map gen := by
  induction k, lines, o, n, path using parseHunkContent.induct gen with
  | case1 k o n path =>
    simp [parseHunkContent]
  | case2 k o n path line rest hsp ih =>
    rw [parseHunkContent]
    simpa only [hsp, if_true] using ih
  | case3 k o n path line rest hsp hdash ds r1 as r2 ih =>
    unfold_let ds r1 as r2 at ih
    rw [parseHunkContent]
    simp only [if_neg hsp, dif_pos hdash, List.length_cons, List.map_cons]
    refine ⟨by omega, ?_⟩
    have hid : (if 0 < as.length then
        ({ id := gen k, type := ChangeType.modify, filePath := path, oldLineStart := o,
           oldLineCount := (ds.map (fun l => l.drop 1)).length, newLineStart := n,
           newLineCount := (as.map (fun l => l.drop 1)).length,
           oldContent := ds.map (fun l => l.drop 1), newContent := as.map (fun l => l.drop 1),
           status := ChangeStatus.pending } : DiffChange)
      else
        { id := gen k, type := ChangeType.delete, filePath := path, oldLineStart := o,
          oldLineCount := (ds.map (fun l => l.drop 1)).length, newLineStart := n,
          newLineCount := 0, oldContent := ds.map (fun l => l.drop 1), newContent := [],
          status := ChangeStatus.pending }).id = gen k := by
      split <;> rfl
    rw [hid, ih.2]
    rfl
  | case4 k o n path line rest hsp hdash hplus as r1 ih =>
    unfold_let as r1 at ih
    rw [parseHunkContent]
    simp only [if_neg hsp, dif_neg hdash, dif_pos hplus, List.length_cons, List.map_cons]
    refine ⟨by omega, ?_⟩
    rw [ih.2]
    rfl
  | case5 k o n path line rest hsp hdash hplus ih =>
    rw [parseHunkContent]
    simp only [if_neg hsp, dif_neg hdash, dif_neg hplus]
    exact ih

/-- The hunk-scanning loop preserves the creation invariant. -/
theorem fileDiffLoop_inv (gen : Nat → String) (path : String) (rest : List String) :
    ∀ (changes : List DiffChange) (k : Nat) (cur : List String) (os ns : Nat) (b : Bool),
      (∀ c ∈ changes, changeInv path c) →
      ∀ c ∈ (fileDiffLoop gen path rest changes k cur os ns b).1, changeInv path c := by
  induction rest with
  | nil =>
    intro changes k cur os ns b hacc c hc
    rw [fileDiffLoop] at hc
    split at hc
    · rcases List.mem_append.mp hc with h | h
      · exact hacc c h
      · exact parseHunkContent_inv gen k cur os ns path c h
    · exact hacc c hc
  | cons line rest ih =>
    intro changes k cur os ns b hacc c hc
    rw [fileDiffLoop] at hc
    split at hc
    · split at hc
      · refine ih _ _ _ _ _ _ ?_ c hc
        intro c' hc'
        rcases List.mem_append.mp hc' with h | h
        · exact hacc c' h
        · exact parseHunkContent_inv gen k cur os ns path c' h
      · exact ih _ _ _ _ _ _ hacc c hc
    · split at hc
      · exact ih _ _ _ _ _ _ hacc c hc
      · exact ih _ _ _ _ _ _ hacc c hc

/-- The hunk-scanning loop appends changes whose ids are consecutive fresh
draws after the accumulator. -/
theorem fileDiffLoop_ids (gen : Nat → String) (path : String) (rest : List String) :
    ∀ (changes : List DiffChange) (k : Nat) (cur : List String) (os ns : Nat) (b : Bool),
      ∃ m, (fileDiffLoop gen path rest changes k cur os ns b).2 = k + m ∧
        (fileDiffLoop gen path rest changes k cur os ns b).1.map (fun c => c.id)
          = changes.map (fun c => c.id) ++ (List.range' k m).map gen := by
  induction rest with
  | nil =>
    intro changes k cur os ns b
    rw [fileDiffLoop]
    split
    · obtain ⟨h2, hmap⟩ := parseHunkContent_ids gen k cur os ns path
      exact ⟨(parseHunkContent gen k cur os ns path).1.length, by simpa using h2,
        by simp [List.map_append, hmap]⟩
    · exact ⟨0, by simp, by simp⟩
  | cons line rest ih =>
    intro changes k cur os ns b
    rw [fileDiffLoop]
    split
    · next os1 oc1 ns1 nc1 hh =>
      split
      · obtain ⟨h2, hmap⟩ := parseHunkContent_ids gen k cur os ns path
        obtain ⟨m', hm1, hm2⟩ := ih
          (changes ++ (parseHunkContent gen k cur os ns path).1)
          (parseHunkContent gen k cur os ns path).2 [] os1 ns1 true
        refine ⟨(parseHunkContent gen k cur os ns path).1.length + m', ?_, ?_⟩
        · rw [hm1, h2]
          omega
        · rw [hm2, List.map_append, hmap, h2, List.append_assoc]
          congr 1
          rw [← List.map_append]
          congr 1
          have := List.range'_append_1 k (parseHunkContent gen k cur os ns path).1.length m'
          rw [this]
          congr 1
          omega
      · exact ih changes k [] os1 ns1 true
    · split
      · exact ih changes k (cur ++ [line]) os ns b
      · exact ih changes k cur os ns b


/-- A parsed file section's changes satisfy the creation invariant at the
absolute path obtained by joining the normalized root with the section's
new-side path. -/
theorem parseFileDiffLines_inv (gen : Nat → String) (k : Nat) (lines : List String)
    (root : String) :
    ∀ hunk, (parseFileDiffLines gen k lines root).1 = some hunk →
      ∀ c ∈ hunk.changes, changeInv (jsSlashes root ++ "/" ++ hunk.filePath) c := by
  intro hunk hh c hc
  unfold parseFileDiffLines at hh
  split at hh
  · cases hh
  · next line0 rest0 =>
    split at hh
    · cases hh
    · next oldPath newPath hmh =>
      split at hh
      · cases hh
      · injection hh with hh
        subst hh
        exact fileDiffLoop_inv gen _ _ [] k [] 0 0 false (by intro c' h; cases h) c hc

/-- A parsed file section consumes consecutive fresh id draws. -/
theorem parseFileDiffLines_ids (gen : Nat → String) (k : Nat) (lines : List String)
    (root : String) :
    ∃ m, (parseFileDiffLines gen k lines root).2 = k + m ∧
      (((parseFileDiffLines gen k lines root).1.elim [] (fun h => h.changes)).map
        (fun c => c.id)) = (List.range' k m).map gen := by
  unfold parseFileDiffLines
  split
  · exact ⟨0, by simp, by simp⟩
  · next line0 rest0 =>
    split
    · exact ⟨0, by simp, by simp⟩
    · next oldPath newPath hmh =>
      split
      · exact ⟨0, by simp, by simp⟩
      · obtain ⟨m, h1, h2⟩ := fileDiffLoop_ids gen
          (jsSlashes root ++ "/" ++ newPath) (line0 :: rest0) [] k [] 0 0 false
        exact ⟨m, by simpa using h1, by simpa using h2⟩

/-- All sections together preserve the creation invariant. -/
theorem parseSections_inv (gen : Nat → String) (root : String) (secs : List (List String)) :
    ∀ k, ∀ hunk ∈ (parseSections gen root secs k).1, ∀ c ∈ hunk.changes,
      changeInv (jsSlashes root ++ "/" ++ hunk.filePath) c := by
  induction secs with
  | nil =>
    intro k hunk hh
    simp [parseSections] at hh
  | cons sec rest ih =>
    intro k hunk hh c hc
    rw [parseSections] at hh
    split at hh
    · next hunk0 hres =>
      split at hh
      · rcases List.mem_cons.mp hh with h | h
        · subst h
          exact parseFileDiffLines_inv gen k sec root hunk hres c hc
        · exact ih _ hunk h c hc
      · exact ih _ hunk hh c hc
    · exact ih _ hunk hh c hc

/-- All sections together consume consecutive fresh id draws. -/
theorem parseSections_ids (gen : Nat → String) (root : String) (secs : List (List String)) :
    ∀ k, ∃ m, (parseSections gen root secs k).2 = k + m ∧
      ((parseSections gen root secs k).1.flatMap (fun h => h.changes.map (fun c => c.id)))
        = (List.range' k m).map gen := by
  induction secs with
  | nil =>
    intro k
    exact ⟨0, by simp [parseSections], by simp [parseSections]⟩
  | cons sec rest ih =>
    intro k
    obtain ⟨m, h1, h2⟩ := parseFileDiffLines_ids gen k sec root
    obtain ⟨m', h1', h2'⟩ := ih (parseFileDiffLines gen k sec root).2
    rw [parseSections]
    rcases hres : (parseFileDiffLines gen k sec root).1 with _ | hunk0
    · rw [hres] at h2
      simp only [Option.elim, List.map_nil] at h2
      have hm0 : m = 0 := by
        by_contra hm
        have hx : (List.range' k m).map gen = [] := h2.symm
        rw [List.map_eq_nil_iff, List.range'_eq_nil] at hx
        exact hm hx
      simp only [hres]
      refine ⟨m', by omega, ?_⟩
      rw [h2', h1, hm0]
      simp
    · rw [hres] at h2
      simp only [Option.elim] at h2
      simp only [hres]
      split
      · refine ⟨m + m', ?_, ?_⟩
        · show (parseSections gen root rest (parseFileDiffLines gen k sec root).2).2
            = k + (m + m')
          omega
        · show (hunk0 :: (parseSections gen root rest
              (parseFileDiffLines gen k sec root).2).1).flatMap
              (fun h => h.changes.map (fun c => c.id))
            = (List.range' k (m + m')).map gen
          rw [List.flatMap_cons, h2, h2', h1]
          rw [← List.map_append, List.range'_append_1]
          congr 2
          omega
      · next hlen =>
        have hchanges : hunk0.changes = [] := List.length_eq_zero.mp (by omega)
        have hm0 : m = 0 := by
          rw [hchanges] at h2
          simp only [List.map_nil] at h2
          by_contra hm
          have hx : (List.range' k m).map gen = [] := h2.symm
          rw [List.map_eq_nil_iff, List.range'_eq_nil] at hx
          exact hm hx
        refine ⟨m', by omega, ?_⟩
        rw [h2', h1, hm0]
        simp

/-- C9: every change produced by the parser has status Pending, an absolute
`filePath` equal to the normalized root joined with its hunk's new-side
relative path, and the kind invariant (Add: `oldLineCount = 0`, empty
`oldContent`; Delete: `newLineCount = 0`, empty `newContent`; Modify: both
counts at least 1 and both contents nonempty) — see `changeInv`; and with an
injective id supply (the model of `crypto.randomBytes` freshness) all ids
across the parse are pairwise distinct. -/
theorem parser_change_invariants (gen : Nat → String) (k : Nat) (diffText root : String) :
    (∀ hunk ∈ (parseDiffOutput gen k diffText root).1, ∀ c ∈ hunk.changes,
      changeInv (jsSlashes root ++ "/" ++ hunk.filePath) c) ∧
    (Function.Injective gen →
      ((parseDiffOutput gen k diffText root).1.flatMap
        (fun h => h.changes.map (fun c => c.id))).Nodup) := by
  constructor
  · intro hunk hh c hc
    unfold parseDiffOutput at hh
    exact parseSections_inv gen root _ k hunk hh c hc
  · intro hinj
    unfold parseDiffOutput
    obtain ⟨m, _, h2⟩ := parseSections_ids gen root
      ((splitDiffSections [] (jsSplitLines diffText)).filter (fun sec => !sectionIsBlank sec)) k
    rw [h2]
    exact (List.nodup_range' _ _ _ (by norm_num)).map hinj

/-- The hunk produced for a minimal one-addition diff. -/
def sampleHunk (fp : String) (cs : List DiffChange) : DiffHunk :=
  { filePath := fp, isNew := false, isDeleted := false, isRenamed := false,
    oldFilePath := none, changes := cs }

/-- Concrete evaluation of the full parser pipeline on a one-addition diff,
for an arbitrary id supply. -/
theorem parser_eval_sample (gen : Nat → String) :
    (parseDiffOutput gen 0 "diff --git a/f.ts b/f.ts\n@@ -1 +1 @@\n+x" "/r").1
      = [sampleHunk "f.ts" [sampleChange (gen 0) "/r/f.ts" ChangeStatus.pending]] := by
  simp [parseDiffOutput, parseSections, parseFileDiffLines, fileDiffLoop, parseHunkContent,
    matchFileHeader, splitAtFirstBSep, parseHunkHeader, parseOptCount, digitsToNat,
    isTextFile, jsSplitLines, splitCharList, jsSlashes, jsStartsWith, jsToLower,
    lastIndexOfChar, sectionIsBlank, splitDiffSections, binaryExtensions,
    sampleHunk, sampleChange]
  decide


/-- C9 witness: the creation invariant at the concrete parsed change. -/
theorem parser_change_invariants_witness :
    changeInv (jsSlashes "/r" ++ "/"
        ++ (sampleHunk "f.ts" [sampleChange "0" "/r/f.ts" ChangeStatus.pending]).filePath)
      (sampleChange "0" "/r/f.ts" ChangeStatus.pending) :=
  (parser_change_invariants (fun _ => "0") 0
      "diff --git a/f.ts b/f.ts\n@@ -1 +1 @@\n+x" "/r").1
    (sampleHunk "f.ts" [sampleChange "0" "/r/f.ts" ChangeStatus.pending])
    (by rw [parser_eval_sample (fun _ => "0")]; simp)
    (sampleChange "0" "/r/f.ts" ChangeStatus.pending)
    (by simp [sampleHunk])


/-! ### C8 -/

/-- A change with its id blanked, for comparison up to id generation. -/
def eraseId (c : DiffChange) : DiffChange := { c with id := "" }

/-- A hunk with all change ids blanked. -/
def eraseHunkIds (h : DiffHunk) : DiffHunk := { h with changes := h.changes.map eraseId }

/-- The hunk-content parser is id-supply independent after blanking ids. -/
theorem parseHunkContent_erase (gen : Nat → String) (k : Nat) (lines : List String)
    (o n : Int) (path : String) :
    ∀ (gen' : Nat → String) (k' : Nat),
      (parseHunkContent gen k lines o n path).1.map eraseId
        = (parseHunkContent gen' k' lines o n path).1.map eraseId := by
  induction k, lines, o, n, path using parseHunkContent.induct gen with
  | case1 k o n path =>
    intro gen' k'
    simp [parseHunkContent]
  | case2 k o n path line rest hsp ih =>
    intro gen' k'
    rw [parseHunkContent]
    conv_rhs => rw [parseHunkContent]
    simp only [if_pos hsp]
    exact ih gen' k'
  | case3 k o n path line rest hsp hdash ds r1 as r2 ih =>
    intro gen' k'
    unfold_let ds r1 as r2 at ih
    rw [parseHunkContent]
    conv_rhs => rw [parseHunkContent]
    simp only [if_neg hsp, dif_pos hdash, List.map_cons]
    rw [ih gen' (k' + 1)]
    congr 1
    split <;> rfl
  | case4 k o n path line rest hsp hdash hplus as r1 ih =>
    intro gen' k'
    unfold_let as r1 at ih
    rw [parseHunkContent]
    conv_rhs => rw [parseHunkContent]
    simp only [if_neg hsp, dif_neg hdash, dif_pos hplus, List.map_cons]
    rw [ih gen' (k' + 1)]
    rfl
  | case5 k o n path line rest hsp hdash hplus ih =>
    intro gen' k'
    rw [parseHunkContent]
    conv_rhs => rw [parseHunkContent]
    simp only [if_neg hsp, dif_neg hdash, dif_neg hplus]
    exact ih gen' k'

/-- The hunk-scanning loop is id-supply independent after blanking ids. -/
theorem fileDiffLoop_erase (gen gen' : Nat → String) (path : String) (rest : List String) :
    ∀ (changes changes' : List DiffChange) (k k' : Nat) (cur : List String)
      (os ns : Nat) (b : Bool),
      changes.map eraseId = changes'.map eraseId →
      (fileDiffLoop gen path rest changes k cur os ns b).1.map eraseId
        = (fileDiffLoop gen' path rest changes' k' cur os ns b).1.map eraseId := by
  induction rest with
  | nil =>
    intro changes changes' k k' cur os ns b hacc
    rw [fileDiffLoop]
    conv_rhs => rw [fileDiffLoop]
    split
    · rw [List.map_append, List.map_append, hacc,
        parseHunkContent_erase gen k cur (os : Int) (ns : Int) path gen' k']
    · exact hacc
  | cons line rest ih =>
    intro changes changes' k k' cur os ns b hacc
    rw [fileDiffLoop]
    conv_rhs => rw [fileDiffLoop]
    rcases hh : parseHunkHeader line with _ | ⟨os1, oc1, ns1, nc1⟩
    · simp only [hh]
      split
      · exact ih _ _ _ _ _ _ _ _ hacc
      · exact ih _ _ _ _ _ _ _ _ hacc
    · simp only [hh]
      split
      · apply ih
        rw [List.map_append, List.map_append, hacc,
          parseHunkContent_erase gen k cur (os : Int) (ns : Int) path gen' k']
      · exact ih _ _ _ _ _ _ _ _ hacc

/-- A parsed file section is id-supply independent after blanking ids. -/
theorem parseFileDiffLines_erase (gen gen' : Nat → String) (k k' : Nat)
    (lines : List String) (root : String) :
    ((parseFileDiffLines gen k lines root).1).map eraseHunkIds
      = ((parseFileDiffLines gen' k' lines root).1).map eraseHunkIds := by
  cases lines with
  | nil => rfl
  | cons line0 rest0 =>
    rw [parseFileDiffLines]
    conv_rhs => rw [parseFileDiffLines]
    split
    · rfl
    · split
      · rfl
      · simp only [Option.map_some', Option.some.injEq]
        unfold eraseHunkIds
        simp only [DiffHunk.mk.injEq, true_and, and_true, eq_self_iff_true]
        exact fileDiffLoop_erase gen gen' _ _ [] [] k k' [] 0 0 false rfl

/-- The section fold is id-supply independent after blanking ids. -/
theorem parseSections_erase (gen gen' : Nat → String) (root : String)
    (secs : List (List String)) :
    ∀ k k', (parseSections gen root secs k).1.map eraseHunkIds
      = (parseSections gen' root secs k').1.map eraseHunkIds := by
  induction secs with
  | nil => intro k k'; rfl
  | cons sec rest ih =>
    intro k k'
    rw [parseSections]
    conv_rhs => rw [parseSections]
    have hful := parseFileDiffLines_erase gen gen' k k' sec root
    rcases hres : (parseFileDiffLines gen k sec root).1 with _ | h1 <;>
      rcases hres2 : (parseFileDiffLines gen' k' sec root).1 with _ | h2
    · simp only [hres, hres2]
      exact ih _ _
    · rw [hres, hres2] at hful
      exact absurd hful (by simp)
    · rw [hres, hres2] at hful
      exact absurd hful (by simp)
    · rw [hres, hres2] at hful
      simp only [Option.map_some', Option.some.injEq] at hful
      have hlen : h1.changes.length = h2.changes.length := by
        have hx := congrArg (fun h => h.changes.length) hful
        simpa [eraseHunkIds] using hx
      simp only [hres, hres2]
      by_cases hpos : h1.changes.length > 0
      · rw [if_pos hpos, if_pos (hlen ▸ hpos)]
        simp only [List.map_cons]
        rw [hful, ih _ _]
      · rw [if_neg hpos, if_neg (hlen ▸ hpos)]
        exact ih _ _

/-- C8 (amended): the parser is pure and total by construction (the
embedding is a total function: a section whose first line does not carry the
`a/<old> b/<new>` header yields no hunk and leaves the id counter alone),
and it is deterministic in everything except the freshly generated change
ids: any two id supplies and draw counters produce identical hunk lists once
ids are blanked.  It is not deterministic including ids — see the
counterexample. -/
theorem parse_total_deterministic_mod_ids (gen gen' : Nat → String) (k k' : Nat)
    (diffText root : String) :
    ((parseDiffOutput gen k diffText root).1.map eraseHunkIds)
      = ((parseDiffOutput gen' k' diffText root).1.map eraseHunkIds) ∧
    (∀ (lines : List String) (k0 : Nat),
      (∀ l, lines.head? = some l → matchFileHeader l = none) →
      parseFileDiffLines gen k0 lines root = (none, k0)) := by
  constructor
  · unfold parseDiffOutput
    exact parseSections_erase gen gen' root _ k k'
  · intro lines k0 hhead
    cases lines with
    | nil => rfl
    | cons line0 rest0 =>
      rw [parseFileDiffLines, hhead line0 rfl]


/-- C8 counterexample: two calls of the parser on the same diff text and
root, differing only in the id randomness (modelled by two id supplies),
yield different outputs — the claim that two calls yield identical output
fails at this input. -/
theorem parse_id_nondeterminism_cex :
    parseDiffOutput (fun _ => "a") 0 "diff --git a/f.ts b/f.ts\n@@ -1 +1 @@\n+x" "/r"
      ≠ parseDiffOutput (fun _ => "b") 0 "diff --git a/f.ts b/f.ts\n@@ -1 +1 @@\n+x" "/r" := by
  intro h
  have h1 := congrArg Prod.fst h
  rw [parser_eval_sample (fun _ => "a"), parser_eval_sample (fun _ => "b")] at h1
  simp [sampleHunk, sampleChange] at h1

/-- C8 witness: the blanked-id determinism and malformed-section skipping at
concrete inputs. -/
theorem parse_total_deterministic_mod_ids_witness :
    ((parseDiffOutput (fun _ => "a") 0 "diff --git a/f.ts b/f.ts\n@@ -1 +1 @@\n+x"
        "/r").1.map eraseHunkIds)
      = ((parseDiffOutput (fun _ => "b") 7 "diff --git a/f.ts b/f.ts\n@@ -1 +1 @@\n+x"
        "/r").1.map eraseHunkIds) ∧
    parseFileDiffLines (fun _ => "a") 3 ["garbage"] "/r" = (none, 3) :=
  ⟨(parse_total_deterministic_mod_ids (fun _ => "a") (fun _ => "b") 0 7
      "diff --git a/f.ts b/f.ts\n@@ -1 +1 @@\n+x" "/r").1,
   (parse_total_deterministic_mod_ids (fun _ => "a") (fun _ => "b") 0 7
      "diff --git a/f.ts b/f.ts\n@@ -1 +1 @@\n+x" "/r").2 ["garbage"] 3
    (by intro l hl; injection hl with hl; subst hl; decide)⟩


/-- The two header fields the parser actually consumes: `oldStart` and
`newStart`. -/
def headerStarts (l : String) : Option (Nat × Nat) :=
  (parseHunkHeader l).map (fun t => (t.1, t.2.2.1))

/-- Two lines are related when they are equal, or both match the hunk-header
regex with the same start fields (count fields free to differ, be present,
or be omitted). -/
def relLine (l1 l2 : String) : Bool :=
  decide (l1 = l2) ||
    ((headerStarts l1).isSome && decide (headerStarts l1 = headerStarts l2))

/-- Pointwise `relLine` over two line lists. -/
def relLines : List String → List String → Bool
  | [], [] => true
  | a :: as, b :: bs => relLine a b && relLines as bs
  | _, _ => false

/-- A line that matches the hunk-header regex begins with the four
characters of `@@ -`. -/
theorem header_shape (l : String) (h : (parseHunkHeader l).isSome = true) :
    ∃ t, l.toList = '@' :: '@' :: ' ' :: '-' :: t := by
  unfold parseHunkHeader at h
  split at h
  · next t heq => exact ⟨t, heq⟩
  · simp at h

/-- A line whose first character differs from a pattern's first character
does not start with that pattern. -/
theorem jsStartsWith_false_of_head (l : String) (c : Char) (t : List Char)
    (hl : l.toList = c :: t) (p : String) (c' : Char) (t' : List Char)
    (hp : p.toList = c' :: t') (hne : c' ≠ c) : jsStartsWith l p = false := by
  unfold jsStartsWith
  rw [hl, hp]
  simp [List.isPrefixOf, hne]

/-- A header line cannot be a `diff --git ` marker line. -/
theorem header_not_marker (l : String) (h : (parseHunkHeader l).isSome = true) :
    jsStartsWith l "diff --git " = false := by
  obtain ⟨t, hl⟩ := header_shape l h
  exact jsStartsWith_false_of_head l '@' _ hl _ 'd' _ rfl (by decide)

/-- A header line fails the `a/<old> b/<new>` file-header match. -/
theorem header_not_fileHeader (l : String) (h : (parseHunkHeader l).isSome = true) :
    matchFileHeader l = none := by
  obtain ⟨t, hl⟩ := header_shape l h
  unfold matchFileHeader
  rw [hl]
  simp

/-- A header line is not whitespace-only. -/
theorem header_not_blank (l : String) (h : (parseHunkHeader l).isSome = true) :
    l.toList.all Char.isWhitespace = false := by
  obtain ⟨t, hl⟩ := header_shape l h
  rw [hl]
  simp

/-- Unfold a `relLine` fact: equal lines, or two header lines with the same
start fields. -/
theorem relLine_elim (l1 l2 : String) (h : relLine l1 l2 = true) :
    l1 = l2 ∨ ((parseHunkHeader l1).isSome = true ∧ (parseHunkHeader l2).isSome = true ∧
      headerStarts l1 = headerStarts l2) := by
  rw [relLine, Bool.or_eq_true] at h
  rcases h with h | h
  · exact Or.inl (of_decide_eq_true h)
  · rw [Bool.and_eq_true] at h
    obtain ⟨h1, h2⟩ := h
    have hst : headerStarts l1 = headerStarts l2 := of_decide_eq_true h2
    rcases ho1 : parseHunkHeader l1 with _ | t1
    · rw [show headerStarts l1 = none from by simp [headerStarts, ho1]] at h1
      simp at h1
    · rcases ho2 : parseHunkHeader l2 with _ | t2
      · rw [show headerStarts l2 = none from by simp [headerStarts, ho2]] at hst
        rw [show headerStarts l1 = some (t1.1, t1.2.2.1) from by simp [headerStarts, ho1]] at hst
        cases hst
      · exact Or.inr ⟨by simp [ho1], by simp [ho2], hst⟩

/-- `relLine` respects the `diff --git ` marker test, and related marker
lines are equal. -/
theorem relLine_marker (l1 l2 : String) (h : relLine l1 l2 = true) :
    jsStartsWith l1 "diff --git " = jsStartsWith l2 "diff --git " ∧
    (jsStartsWith l1 "diff --git " = true → l1 = l2) := by
  rcases relLine_elim l1 l2 h with h | ⟨h1, h2, _⟩
  · exact ⟨by rw [h], fun _ => h⟩
  · rw [header_not_marker l1 h1, header_not_marker l2 h2]
    exact ⟨rfl, fun hx => by cases hx⟩

/-- `relLine` respects blankness. -/
theorem relLine_blank (l1 l2 : String) (h : relLine l1 l2 = true) :
    l1.toList.all Char.isWhitespace = l2.toList.all Char.isWhitespace := by
  rcases relLine_elim l1 l2 h with h | ⟨h1, h2, _⟩
  · rw [h]
  · rw [header_not_blank l1 h1, header_not_blank l2 h2]

/-- `relLine` respects the file-header match. -/
theorem relLine_fileHeader (l1 l2 : String) (h : relLine l1 l2 = true) :
    matchFileHeader l1 = matchFileHeader l2 := by
  rcases relLine_elim l1 l2 h with h | ⟨h1, h2, _⟩
  · rw [h]
  · rw [header_not_fileHeader l1 h1, header_not_fileHeader l2 h2]

/-- `relLine` respects any prefix test whose first character is not `@`. -/
theorem relLine_starts (l1 l2 : String) (h : relLine l1 l2 = true)
    (p : String) (c : Char) (t : List Char) (hp : p.toList = c :: t) (hc : c ≠ '@') :
    jsStartsWith l1 p = jsStartsWith l2 p ∧ (jsStartsWith l1 p = true → l1 = l2) := by
  rcases relLine_elim l1 l2 h with h | ⟨h1, h2, _⟩
  · exact ⟨by rw [h], fun _ => h⟩
  · obtain ⟨t1, hl1⟩ := header_shape l1 h1
    obtain ⟨t2, hl2⟩ := header_shape l2 h2
    rw [jsStartsWith_false_of_head l1 '@' _ hl1 p c t hp hc,
      jsStartsWith_false_of_head l2 '@' _ hl2 p c t hp hc]
    exact ⟨rfl, fun hx => by cases hx⟩

/-- Appending related lines preserves `relLines`. -/
theorem relLines_append_single (c1 c2 : List String) (a b : String)
    (hc : relLines c1 c2 = true) (hab : relLine a b = true) :
    relLines (c1 ++ [a]) (c2 ++ [b]) = true := by
  induction c1 generalizing c2 with
  | nil =>
    cases c2 with
    | nil => simp [relLines, hab]
    | cons x xs => simp [relLines] at hc
  | cons x xs ih =>
    cases c2 with
    | nil => simp [relLines] at hc
    | cons y ys =>
      rw [relLines, Bool.and_eq_true] at hc
      obtain ⟨h1, h2⟩ := hc
      simp only [List.cons_append, relLines, h1, Bool.true_and]
      exact ih ys h2

/-- `relLines` is reflexive. -/
theorem relLines_refl (l : List String) : relLines l l = true := by
  induction l with
  | nil => rfl
  | cons a as ih => simp [relLines, relLine, ih]

/-- Pointwise `relLines` over section lists. -/
def relSections : List (List String) → List (List String) → Bool
  | [], [] => true
  | s1 :: r1, s2 :: r2 => relLines s1 s2 && relSections r1 r2
  | _, _ => false

/-- Section splitting sends related line lists (with related accumulators)
to related section lists. -/
theorem splitDiffSections_rel (ls1 : List String) :
    ∀ (ls2 : List String), relLines ls1 ls2 = true →
    ∀ cur1 cur2, relLines cur1 cur2 = true →
      relSections (splitDiffSections cur1 ls1) (splitDiffSections cur2 ls2) = true := by
  induction ls1 with
  | nil =>
    intro ls2 h cur1 cur2 hc
    cases ls2 with
    | nil => simpa [splitDiffSections, relSections] using hc
    | cons y ys => simp [relLines] at h
  | cons x xs ih =>
    intro ls2 h cur1 cur2 hc
    cases ls2 with
    | nil => simp [relLines] at h
    | cons y ys =>
      rw [relLines, Bool.and_eq_true] at h
      obtain ⟨hxy, hrest⟩ := h
      obtain ⟨hmeq, hmcopy⟩ := relLine_marker x y hxy
      simp only [splitDiffSections]
      by_cases hm : jsStartsWith x "diff --git " = true
      · have hxeq : x = y := hmcopy hm
        rw [if_pos hm, if_pos (hmeq ▸ hm)]
        simp only [relSections, Bool.and_eq_true]
        subst hxeq
        exact ⟨relLines_append_single cur1 cur2 "" "" hc (by simp [relLine]),
          ih ys hrest [x.drop 11] [x.drop 11] (relLines_refl _)⟩
      · rw [if_neg hm, if_neg (by rw [← hmeq]; exact hm)]
        exact ih ys hrest (cur1 ++ [x]) (cur2 ++ [y])
          (relLines_append_single cur1 cur2 x y hc hxy)

/-- Related sections have equal blankness. -/
theorem relLines_blank (s1 : List String) :
    ∀ s2, relLines s1 s2 = true → sectionIsBlank s1 = sectionIsBlank s2 := by
  induction s1 with
  | nil =>
    intro s2 h
    cases s2 with
    | nil => rfl
    | cons y ys => simp [relLines] at h
  | cons x xs ih =>
    intro s2 h
    cases s2 with
    | nil => simp [relLines] at h
    | cons y ys =>
      rw [relLines, Bool.and_eq_true] at h
      obtain ⟨hxy, hrest⟩ := h
      simp only [sectionIsBlank, List.all_cons]
      rw [relLine_blank x y hxy]
      have := ih ys hrest
      simp only [sectionIsBlank] at this
      rw [this]

/-- `relLines` is preserved by `drop` and `take`. -/
theorem relLines_drop (s1 : List String) :
    ∀ s2 n, relLines s1 s2 = true → relLines (s1.drop n) (s2.drop n) = true := by
  induction s1 with
  | nil =>
    intro s2 n h
    cases s2 with
    | nil => simp [relLines]
    | cons y ys => simp [relLines] at h
  | cons x xs ih =>
    intro s2 n h
    cases s2 with
    | nil => simp [relLines] at h
    | cons y ys =>
      rw [relLines, Bool.and_eq_true] at h
      cases n with
      | zero =>
        simp only [List.drop_zero]
        rw [relLines, Bool.and_eq_true]
        exact h
      | succ n => exact ih ys n h.2

theorem relLines_take (s1 : List String) :
    ∀ s2 n, relLines s1 s2 = true → relLines (s1.take n) (s2.take n) = true := by
  induction s1 with
  | nil =>
    intro s2 n h
    cases s2 with
    | nil => simp [relLines]
    | cons y ys => simp [relLines] at h
  | cons x xs ih =>
    intro s2 n h
    cases s2 with
    | nil => simp [relLines] at h
    | cons y ys =>
      rw [relLines, Bool.and_eq_true] at h
      cases n with
      | zero => rfl
      | succ n =>
        simp only [List.take_succ_cons, relLines, Bool.and_eq_true]
        exact ⟨h.1, ih ys n h.2⟩

/-- Related lines agree on any non-`@` prefix test, list-wise. -/
theorem relLines_any_starts (s1 : List String) :
    ∀ s2, relLines s1 s2 = true →
    ∀ (p : String) (c : Char) (t : List Char), p.toList = c :: t → c ≠ '@' →
      (s1.any (fun l => jsStartsWith l p)) = (s2.any (fun l => jsStartsWith l p)) := by
  induction s1 with
  | nil =>
    intro s2 h p c t hp hc
    cases s2 with
    | nil => rfl
    | cons y ys => simp [relLines] at h
  | cons x xs ih =>
    intro s2 h p c t hp hc
    cases s2 with
    | nil => simp [relLines] at h
    | cons y ys =>
      rw [relLines, Bool.and_eq_true] at h
      simp only [List.any_cons]
      rw [(relLine_starts x y h.1 p c t hp hc).1, ih ys h.2 p c t hp hc]

/-- Related line lists agree on the rename/similarity scan. -/
theorem relLines_any_renamed (s1 : List String) :
    ∀ s2, relLines s1 s2 = true →
      (s1.any (fun l => jsStartsWith l "rename from" || jsStartsWith l "similarity index"))
        = (s2.any (fun l => jsStartsWith l "rename from" || jsStartsWith l "similarity index")) := by
  induction s1 with
  | nil =>
    intro s2 h
    cases s2 with
    | nil => rfl
    | cons y ys => simp [relLines] at h
  | cons x xs ih =>
    intro s2 h
    cases s2 with
    | nil => simp [relLines] at h
    | cons y ys =>
      rw [relLines, Bool.and_eq_true] at h
      simp only [List.any_cons]
      rw [(relLine_starts x y h.1 "rename from" 'r' _ rfl (by decide)).1,
        (relLine_starts x y h.1 "similarity index" 's' _ rfl (by decide)).1,
        ih ys h.2]

/-- The hunk-scanning loop gives identical results on related line lists:
body/context lines are equal, and header lines contribute only their start
fields, which `relLine` forces to agree. -/
theorem fileDiffLoop_rel (gen : Nat → String) (ap : String) (ls1 : List String) :
    ∀ ls2, relLines ls1 ls2 = true →
    ∀ changes k cur oldStart newStart inHunk,
      fileDiffLoop gen ap ls1 changes k cur oldStart newStart inHunk
        = fileDiffLoop gen ap ls2 changes k cur oldStart newStart inHunk := by
  induction ls1 with
  | nil =>
    intro ls2 h changes k cur oldStart newStart inHunk
    cases ls2 with
    | nil => rfl
    | cons y ys => simp [relLines] at h
  | cons x xs ih =>
    intro ls2 h changes k cur oldStart newStart inHunk
    cases ls2 with
    | nil => simp [relLines] at h
    | cons y ys =>
      rw [relLines, Bool.and_eq_true] at h
      obtain ⟨hxy, hrest⟩ := h
      rcases relLine_elim x y hxy with heq | ⟨h1, h2, hst⟩
      · subst heq
        simp only [fileDiffLoop]
        rcases hh : parseHunkHeader x with _ | ⟨os, oc, ns, nc⟩
        · simp only [hh]
          by_cases hc : (inHunk && (jsStartsWith x "+" || jsStartsWith x "-"
              || jsStartsWith x " ")) = true
          · simp only [if_pos hc]
            exact ih ys hrest changes k (cur ++ [x]) oldStart newStart inHunk
          · simp only [if_neg hc]
            exact ih ys hrest changes k cur oldStart newStart inHunk
        · simp only [hh]
          by_cases hc : (inHunk && !cur.isEmpty) = true
          · simp only [if_pos hc]
            exact ih ys hrest _ _ _ _ _ _
          · simp only [if_neg hc]
            exact ih ys hrest changes k [] os ns true
      · obtain ⟨t1, hh1⟩ := Option.isSome_iff_exists.mp h1
        obtain ⟨t2, hh2⟩ := Option.isSome_iff_exists.mp h2
        obtain ⟨os1, oc1, ns1, nc1⟩ := t1
        obtain ⟨os2, oc2, ns2, nc2⟩ := t2
        have e1 : headerStarts x = some (os1, ns1) := by simp [headerStarts, hh1]
        have e2 : headerStarts y = some (os2, ns2) := by simp [headerStarts, hh2]
        rw [e1, e2] at hst
        have hp : (os1, ns1) = (os2, ns2) := Option.some.inj hst
        have hos : os1 = os2 := congrArg Prod.fst hp
        have hns : ns1 = ns2 := congrArg Prod.snd hp
        subst hos
        subst hns
        simp only [fileDiffLoop, hh1, hh2]
        by_cases hc : (inHunk && !cur.isEmpty) = true
        · simp only [if_pos hc]
          exact ih ys hrest _ _ _ _ _ _
        · simp only [if_neg hc]
          exact ih ys hrest changes k [] os1 ns1 true

/-- `parseFileDiff` gives identical results on related sections: the file
header, classification scans, and hunk loop all ignore count fields. -/
theorem parseFileDiffLines_rel (gen : Nat → String) (k : Nat) (s1 s2 : List String)
    (h : relLines s1 s2 = true) (root : String) :
    parseFileDiffLines gen k s1 root = parseFileDiffLines gen k s2 root := by
  cases s1 with
  | nil =>
    cases s2 with
    | nil => rfl
    | cons y ys => simp [relLines] at h
  | cons x xs =>
    cases s2 with
    | nil => simp [relLines] at h
    | cons y ys =>
      rw [relLines, Bool.and_eq_true] at h
      obtain ⟨hxy, hrest⟩ := h
      have hmf : matchFileHeader x = matchFileHeader y := relLine_fileHeader x y hxy
      rcases hm : matchFileHeader x with _ | ⟨oldPath, newPath⟩
      · have hmy : matchFileHeader y = none := hmf.symm.trans hm
        simp only [parseFileDiffLines, hm, hmy]
      · have heq : x = y := by
          rcases relLine_elim x y hxy with heq | ⟨h1, _, _⟩
          · exact heq
          · rw [header_not_fileHeader x h1] at hm
            cases hm
        subst heq
        simp only [parseFileDiffLines, hm]
        by_cases ht : (!isTextFile newPath) = true
        · simp only [if_pos ht]
        · simp only [if_neg ht]
          have hk9 := relLines_take xs ys 9 hrest
          have hnew := relLines_any_starts (xs.take 9) (ys.take 9) hk9
            "new file mode" 'n' _ rfl (by decide)
          have hdel := relLines_any_starts (xs.take 9) (ys.take 9) hk9
            "deleted file mode" 'd' _ rfl (by decide)
          have hren := relLines_any_renamed (xs.take 9) (ys.take 9) hk9
          have hrel2 : relLines (x :: xs) (x :: ys) = true := by
            rw [relLines, Bool.and_eq_true]
            exact ⟨by simp [relLine], hrest⟩
          have hloop := fileDiffLoop_rel gen (jsSlashes root ++ "/" ++ newPath)
            (x :: xs) (x :: ys) hrel2 [] k [] 0 0 false
          simp only [List.drop_succ_cons, List.drop_zero, hnew, hdel, hren, hloop]

/-- Filtering out blank sections preserves the section relation. -/
theorem relSections_filter (ss1 : List (List String)) :
    ∀ ss2, relSections ss1 ss2 = true →
      relSections (ss1.filter (fun sec => !sectionIsBlank sec))
        (ss2.filter (fun sec => !sectionIsBlank sec)) = true := by
  induction ss1 with
  | nil =>
    intro ss2 h
    cases ss2 with
    | nil => rfl
    | cons y ys => simp [relSections] at h
  | cons s1 r1 ih =>
    intro ss2 h
    cases ss2 with
    | nil => simp [relSections] at h
    | cons s2 r2 =>
      rw [relSections, Bool.and_eq_true] at h
      obtain ⟨h1, h2⟩ := h
      rw [List.filter_cons, List.filter_cons, relLines_blank s1 s2 h1]
      by_cases hb : (!sectionIsBlank s2) = true
      · simp only [if_pos hb, relSections, Bool.and_eq_true]
        exact ⟨h1, ih r2 h2⟩
      · simp only [if_neg hb]
        exact ih r2 h2

/-- Folding the per-section parser over related section lists gives
identical results. -/
theorem parseSections_rel (gen : Nat → String) (root : String)
    (ss1 : List (List String)) :
    ∀ ss2, relSections ss1 ss2 = true → ∀ k,
      parseSections gen root ss1 k = parseSections gen root ss2 k := by
  induction ss1 with
  | nil =>
    intro ss2 h k
    cases ss2 with
    | nil => rfl
    | cons y ys => simp [relSections] at h
  | cons s1 r1 ih =>
    intro ss2 h k
    cases ss2 with
    | nil => simp [relSections] at h
    | cons s2 r2 =>
      rw [relSections, Bool.and_eq_true] at h
      obtain ⟨h1, h2⟩ := h
      simp only [parseSections, parseFileDiffLines_rel gen k s1 s2 h1 root, ih r2 h2]

/-- C10: the parser's output is independent of the count fields of hunk
headers.  For any two diff inputs whose line lists are pointwise related —
equal lines, or hunk-header lines sharing the same `oldStart`/`newStart`
fields with the `,count` fields free to differ or be omitted —
`parseDiffOutput` produces identical hunk and change lists (and the same
id-draw count): only the two start values of each header, together with the
body lines, determine the emitted changes. -/
theorem parse_ignores_header_counts (gen : Nat → String) (k : Nat)
    (t1 t2 root : String)
    (h : relLines (jsSplitLines t1) (jsSplitLines t2) = true) :
    parseDiffOutput gen k t1 root = parseDiffOutput gen k t2 root := by
  unfold parseDiffOutput
  exact parseSections_rel gen root _ _
    (relSections_filter _ _ (splitDiffSections_rel _ _ h [] [] rfl)) k

/-- Witness for C10: the same one-hunk diff with count fields `-1,1 +1,2`
versus counts omitted parses identically. -/
theorem parse_ignores_header_counts_witness :
    relLines
      (jsSplitLines "diff --git a/f.ts b/f.ts\n@@ -1,1 +1,2 @@\n+x")
      (jsSplitLines "diff --git a/f.ts b/f.ts\n@@ -1 +1 @@\n+x") = true ∧
    parseDiffOutput (fun _ => "id") 0
        "diff --git a/f.ts b/f.ts\n@@ -1,1 +1,2 @@\n+x" "/r"
      = parseDiffOutput (fun _ => "id") 0
        "diff --git a/f.ts b/f.ts\n@@ -1 +1 @@\n+x" "/r" :=
  ⟨by decide, parse_ignores_header_counts (fun _ => "id") 0
      "diff --git a/f.ts b/f.ts\n@@ -1,1 +1,2 @@\n+x"
      "diff --git a/f.ts b/f.ts\n@@ -1 +1 @@\n+x" "/r" (by decide)⟩

end CDR
